import Mathlib

/-!
Shallow embedding of the grocery-optimizer core
(`src/optimizer/price_optimizer.py` and `src/utils/parser.py`).

Prices are modelled as exact rationals; Python dicts with insertion order
are modelled as association lists; Python's stable `list.sort` is modelled
by a stable insertion sort.
-/

namespace GroceryOpt

/-- The `StoreOption` record from `price_optimizer.py` (a NamedTuple). -/
structure StoreOption where
  name : String
  location : Option String
  price_value : ℚ
  price_str : String
deriving DecidableEq, Repr

/-- Model of `ItemOptions = Tuple[str, Sequence[StoreOption]]`. -/
abbrev ItemOptions := String × List StoreOption

/-- Model of `AssignmentEntry = Tuple[str, str, float]` — (item_name, price_str, price_value). -/
abbrev AssignmentEntry := String × String × ℚ

/-- Model of `AssignmentMap = Dict[str, List[AssignmentEntry]]`, as an insertion-ordered
association list. -/
abbrev AssignmentMap := List (String × List AssignmentEntry)

/-- Python `str.strip()`: drop whitespace at both ends. -/
def pyStrip (s : String) : String :=
  ⟨((s.data.dropWhile Char.isWhitespace).reverse.dropWhile Char.isWhitespace).reverse⟩

/-- Python `sub in s` on the underlying character lists. -/
def listContainsSub (pat : List Char) : List Char → Bool
  | [] => pat.isEmpty
  | c :: cs => pat.isPrefixOf (c :: cs) || listContainsSub pat cs

/-- Python `sub in s` for strings. -/
def strContains (s pat : String) : Bool :=
  listContainsSub pat.data s.data

/-- Model of `PriceOptimizer._store_label`: append the stripped location with " - "
unless the location is empty or already a substring of the stripped name. -/
def store_label (name : String) (location : Option String) : String :=
  let label := pyStrip name
  match location with
  | none => label
  | some loc0 =>
    if loc0 = "" then label
    else
      let loc := pyStrip loc0
      if loc ≠ "" ∧ strContains label loc = false then label ++ " - " ++ loc
      else label

/-- Label of a `StoreOption`. -/
def optionLabel (o : StoreOption) : String :=
  store_label o.name o.location

/-- Python `min(key=f)` accumulator: keep the current best, replace only on a
strictly smaller key (so the first minimum wins). -/
def pyMinAux (f : α → ℚ) (b : α) : List α → α
  | [] => b
  | x :: xs => if f x < f b then pyMinAux f x xs else pyMinAux f b xs

/-- Python `min(l, key=f)` on a possibly empty list. -/
def pyMin? (f : α → ℚ) : List α → Option α
  | [] => none
  | x :: xs => some (pyMinAux f x xs)

/-- Minimum of a list of rationals (`none` on the empty list). -/
def minQ? : List ℚ → Option ℚ
  | [] => none
  | x :: xs => some (xs.foldl min x)

/-- The `defaultdict(list)` append: `assignments[label].append(e)`, keeping dict
insertion order. -/
def pushEntry (m : AssignmentMap) (label : String) (e : AssignmentEntry) :
    AssignmentMap :=
  match m with
  | [] => [(label, [e])]
  | (k, es) :: rest =>
    if k = label then (k, es ++ [e]) :: rest
    else (k, es) :: pushEntry rest label e

/-- One step of `_assign_unlimited`'s loop body. -/
def assignUnlimitedStep (acc : AssignmentMap × ℚ) (io : ItemOptions) :
    AssignmentMap × ℚ :=
  match pyMin? (fun o => o.price_value) io.2 with
  | none => acc
  | some best =>
    (pushEntry acc.1 (optionLabel best) (io.1, best.price_str, best.price_value),
     acc.2 + best.price_value)

/-- Model of `PriceOptimizer._assign_unlimited`: per item pick the first cheapest offer,
group under its store label, accumulate the total cost. -/
def assign_unlimited (item_options : List ItemOptions) : AssignmentMap × ℚ :=
  item_options.foldl assignUnlimitedStep ([], 0)

/-- Spec-side: minimum `price_value` of an item's offers (`none` if no offer). -/
def itemMin? (offers : List StoreOption) : Option ℚ :=
  minQ? (offers.map (fun o => o.price_value))

/-- Spec-side: the sum over items of the minimum offer price (items without
offers contribute 0, matching the code's `continue`). -/
def specTotal (item_options : List ItemOptions) : ℚ :=
  (item_options.map (fun io => (itemMin? io.2).getD 0)).sum

section MinLemmas

variable {α : Type} (f : α → ℚ)

theorem pyMinAux_cons (b x : α) (xs : List α) :
    pyMinAux f b (x :: xs) =
      if f x < f b then pyMinAux f x xs else pyMinAux f b xs := rfl

/-- The accumulator-based scan returns the first strict minimum: either the
seed survives and bounds everything, or the result sits in the list with
strictly larger elements before it and no smaller element after it. -/
theorem pyMinAux_spec (l : List α) (b : α) :
    (pyMinAux f b l = b ∧ ∀ y ∈ l, f b ≤ f y) ∨
    (∃ pre post, l = pre ++ pyMinAux f b l :: post ∧
      f (pyMinAux f b l) < f b ∧
      (∀ y ∈ pre, f (pyMinAux f b l) < f y) ∧
      (∀ y ∈ post, f (pyMinAux f b l) ≤ f y)) := by
  induction l generalizing b with
  | nil => left; exact ⟨rfl, by intro y hy; exact absurd hy (List.not_mem_nil y)⟩
  | cons x xs ih =>
    by_cases h : f x < f b
    · rw [pyMinAux_cons, if_pos h]
      rcases ih x with ⟨h1, h2⟩ | ⟨pre, post, h1, h2, h3, h4⟩
      · right
        refine ⟨[], xs, ?_, ?_, ?_, ?_⟩
        · rw [h1]; rfl
        · rw [h1]; exact h
        · intro y hy; exact absurd hy (List.not_mem_nil y)
        · intro y hy; rw [h1]; exact h2 y hy
      · right
        refine ⟨x :: pre, post, ?_, lt_trans h2 h, ?_, h4⟩
        · rw [List.cons_append, ← h1]
        · intro y hy
          rcases List.mem_cons.mp hy with rfl | hy
          · exact h2
          · exact h3 y hy
    · rw [pyMinAux_cons, if_neg h]
      rcases ih b with ⟨h1, h2⟩ | ⟨pre, post, h1, h2, h3, h4⟩
      · left
        refine ⟨h1, ?_⟩
        intro y hy
        rcases List.mem_cons.mp hy with rfl | hy
        · exact le_of_not_lt h
        · exact h2 y hy
      · right
        refine ⟨x :: pre, post, ?_, h2, ?_, h4⟩
        · rw [List.cons_append, ← h1]
        · intro y hy
          rcases List.mem_cons.mp hy with rfl | hy
          · exact lt_of_lt_of_le h2 (le_of_not_lt h)
          · exact h3 y hy

/-- Applying `pyMin?` to a nonempty list returns the first element achieving the
minimum: strictly larger elements before it, no smaller element after it. -/
theorem pyMin?_first (l : List α) (b : α) (hb : pyMin? f l = some b) :
    ∃ pre post, l = pre ++ b :: post ∧
      (∀ y ∈ pre, f b < f y) ∧ (∀ y ∈ post, f b ≤ f y) := by
  match l with
  | [] => simp [pyMin?] at hb
  | x :: xs =>
    simp only [pyMin?, Option.some.injEq] at hb
    subst hb
    rcases pyMinAux_spec f xs x with ⟨h1, h2⟩ | ⟨pre, post, h1, h2, h3, h4⟩
    · refine ⟨[], xs, ?_, ?_, ?_⟩
      · rw [h1]; rfl
      · intro y hy; exact absurd hy (List.not_mem_nil y)
      · intro y hy; rw [h1]; exact h2 y hy
    · refine ⟨x :: pre, post, by rw [List.cons_append, ← h1], ?_, h4⟩
      intro y hy
      rcases List.mem_cons.mp hy with rfl | hy
      · exact h2
      · exact h3 y hy

theorem pyMin?_isSome (l : List α) (hl : l ≠ []) : ∃ b, pyMin? f l = some b := by
  match l with
  | [] => exact absurd rfl hl
  | x :: xs => exact ⟨pyMinAux f x xs, rfl⟩

theorem pyMin?_le (l : List α) (b : α) (hb : pyMin? f l = some b) :
    b ∈ l ∧ ∀ y ∈ l, f b ≤ f y := by
  obtain ⟨pre, post, h1, h2, h3⟩ := pyMin?_first f l b hb
  subst h1
  constructor
  · simp
  · intro y hy
    rcases List.mem_append.mp hy with hy | hy
    · exact le_of_lt (h2 y hy)
    · rcases List.mem_cons.mp hy with rfl | hy
      · exact le_refl _
      · exact h3 y hy

end MinLemmas

theorem minQ?_isSome (l : List ℚ) (hl : l ≠ []) : ∃ m, minQ? l = some m := by
  match l with
  | [] => exact absurd rfl hl
  | x :: xs => exact ⟨xs.foldl min x, rfl⟩

theorem minQ?_foldl_le (xs : List ℚ) (x : ℚ) :
    xs.foldl min x ≤ x ∧ ∀ y ∈ xs, xs.foldl min x ≤ y := by
  induction xs generalizing x with
  | nil => simp
  | cons z zs ih =>
    simp only [List.foldl_cons]
    refine ⟨le_trans (ih (min x z)).1 (min_le_left _ _), ?_⟩
    intro y hy
    rcases List.mem_cons.mp hy with rfl | hy
    · exact le_trans (ih (min x y)).1 (min_le_right _ _)
    · exact (ih (min x z)).2 y hy

theorem minQ?_le (l : List ℚ) (m : ℚ) (hm : minQ? l = some m) :
    m ∈ l ∧ ∀ y ∈ l, m ≤ y := by
  match l with
  | [] => simp [minQ?] at hm
  | x :: xs =>
    simp only [minQ?, Option.some.injEq] at hm
    subst hm
    have hmem : xs.foldl min x = x ∨ xs.foldl min x ∈ xs := by
      induction xs generalizing x with
      | nil => left; rfl
      | cons z zs ih =>
        simp only [List.foldl_cons]
        rcases ih (min x z) with h | h
        · rcases min_cases x z with ⟨he, _⟩ | ⟨he, _⟩
          · left; rw [h, he]
          · right; rw [h, he]; simp
        · right; simp [h]
    constructor
    · rcases hmem with h | h
      · rw [h]; simp
      · simp [h]
    · intro y hy
      rcases List.mem_cons.mp hy with rfl | hy
      · exact (minQ?_foldl_le xs y).1
      · exact (minQ?_foldl_le xs x).2 y hy

/-- The value found by Python `min` is exactly the minimum of the key images. -/
theorem pyMin?_eq_minQ {α : Type} (f : α → ℚ) (l : List α) (b : α)
    (hb : pyMin? f l = some b) : minQ? (l.map f) = some (f b) := by
  have hne : l ≠ [] := by rintro rfl; simp [pyMin?] at hb
  have hmapne : l.map f ≠ [] := by simp [hne]
  obtain ⟨m, hm⟩ := minQ?_isSome (l.map f) hmapne
  obtain ⟨hmem, hle⟩ := minQ?_le (l.map f) m hm
  obtain ⟨hbmem, hble⟩ := pyMin?_le f l b hb
  obtain ⟨y, hy, hym⟩ := List.mem_map.mp hmem
  have h1 : m ≤ f b := hle (f b) (List.mem_map.mpr ⟨b, hbmem, rfl⟩)
  have h2 : f b ≤ m := by rw [← hym]; exact hble y hy
  rw [hm, le_antisymm h1 h2]

/-- All (store label, entry) pairs of the map, in map order. -/
def flattenMap (m : AssignmentMap) : List (String × AssignmentEntry) :=
  m.flatMap (fun kv => kv.2.map (fun e => (kv.1, e)))

/-- Number of entries carrying a given item name anywhere in the map. -/
def itemCount (m : AssignmentMap) (name : String) : ℕ :=
  (flattenMap m).countP (fun p => decide (p.2.1 = name))

/-- Number of occurrences of a given entry under a given store label. -/
def entryCount (m : AssignmentMap) (l : String) (e : AssignmentEntry) : ℕ :=
  (flattenMap m).countP (fun p => decide (p.1 = l ∧ p.2 = e))

/-- Appending an entry to the map adds exactly one flattened pair. -/
theorem flattenMap_pushEntry (m : AssignmentMap) (l : String)
    (e : AssignmentEntry) :
    (flattenMap (pushEntry m l e)).Perm ((l, e) :: flattenMap m) := by
  induction m with
  | nil => simp [pushEntry, flattenMap]
  | cons kv rest ih =>
    obtain ⟨k, es⟩ := kv
    by_cases hk : k = l
    · subst hk
      have hpe : pushEntry ((k, es) :: rest) k e = (k, es ++ [e]) :: rest := by
        simp [pushEntry]
      rw [hpe]
      have h1 : flattenMap ((k, es ++ [e]) :: rest) =
          (es.map (fun x => (k, x)) ++ [(k, e)]) ++ flattenMap rest := by
        simp [flattenMap]
      rw [h1, List.append_assoc, List.singleton_append]
      exact List.perm_middle
    · have hpe : pushEntry ((k, es) :: rest) l e = (k, es) :: pushEntry rest l e := by
        simp [pushEntry, hk]
      rw [hpe]
      have h1 : flattenMap ((k, es) :: pushEntry rest l e) =
          es.map (fun x => (k, x)) ++ flattenMap (pushEntry rest l e) := by
        simp [flattenMap]
      have h2 : flattenMap ((k, es) :: rest) =
          es.map (fun x => (k, x)) ++ flattenMap rest := by
        simp [flattenMap]
      rw [h1, h2]
      exact List.Perm.trans (List.Perm.append_left _ ih) List.perm_middle

theorem itemCount_pushEntry (m : AssignmentMap) (l : String) (e : AssignmentEntry)
    (name : String) :
    itemCount (pushEntry m l e) name =
      itemCount m name + (if e.1 = name then 1 else 0) := by
  unfold itemCount
  rw [(flattenMap_pushEntry m l e).countP_eq]
  by_cases he : e.1 = name <;> simp [List.countP_cons, he, Nat.add_comm]

theorem entryCount_pushEntry (m : AssignmentMap) (l : String) (e : AssignmentEntry)
    (l' : String) (e' : AssignmentEntry) :
    entryCount (pushEntry m l e) l' e' =
      entryCount m l' e' + (if l = l' ∧ e = e' then 1 else 0) := by
  unfold entryCount
  rw [(flattenMap_pushEntry m l e).countP_eq]
  by_cases hl : l = l'
  · by_cases he : e = e'
    · subst hl; subst he; simp [List.countP_cons, Nat.add_comm]
    · have he' : ¬ (e = e') := he
      simp [List.countP_cons, hl, he']
  · simp [List.countP_cons, hl]

theorem pyMin?_eq_none_iff {α : Type} (f : α → ℚ) (l : List α) :
    pyMin? f l = none ↔ l = [] := by
  cases l <;> simp [pyMin?]

theorem itemMin?_eq_none_iff (offers : List StoreOption) :
    itemMin? offers = none ↔ offers = [] := by
  cases offers <;> simp [itemMin?, minQ?]

/-- Running total of `_assign_unlimited`: the fold adds exactly the sum of
per-item minima. -/
theorem assignUnlimited_foldl_snd (ios : List ItemOptions) (m : AssignmentMap)
    (t : ℚ) :
    (List.foldl assignUnlimitedStep (m, t) ios).2 = t + specTotal ios := by
  induction ios generalizing m t with
  | nil => simp [specTotal]
  | cons io rest ih =>
    simp only [List.foldl_cons]
    rcases hmin : pyMin? (fun o => o.price_value) io.2 with _ | b
    · have hoff : io.2 = [] := (pyMin?_eq_none_iff _ _).mp hmin
      have hmin2 : itemMin? io.2 = none := (itemMin?_eq_none_iff _).mpr hoff
      simp only [assignUnlimitedStep, hmin]
      rw [ih m t]
      simp [specTotal, hmin2]
    · have hmin2 : itemMin? io.2 = some b.price_value :=
        pyMin?_eq_minQ _ _ _ hmin
      simp only [assignUnlimitedStep, hmin]
      rw [ih]
      simp only [specTotal, List.map_cons, List.sum_cons, hmin2, Option.getD_some]
      ring

/-- Names of the items that actually get assigned (those with some offer). -/
def liveNames (ios : List ItemOptions) : List String :=
  (ios.filter (fun io => !io.2.isEmpty)).map Prod.fst

theorem assignUnlimited_foldl_itemCount (ios : List ItemOptions)
    (m : AssignmentMap) (t : ℚ) (name : String) :
    itemCount (List.foldl assignUnlimitedStep (m, t) ios).1 name =
      itemCount m name + ((liveNames ios).countP (fun x => decide (x = name))) := by
  induction ios generalizing m t with
  | nil => simp [liveNames]
  | cons io rest ih =>
    simp only [List.foldl_cons]
    rcases hmin : pyMin? (fun o => o.price_value) io.2 with _ | b
    · have hoff : io.2 = [] := (pyMin?_eq_none_iff _ _).mp hmin
      simp only [assignUnlimitedStep, hmin]
      rw [ih m t]
      simp [liveNames, hoff]
    · have hoff : io.2 ≠ [] := by
        intro hc
        rw [hc] at hmin
        simp [pyMin?] at hmin
      simp only [assignUnlimitedStep, hmin]
      rw [ih]
      rw [itemCount_pushEntry]
      have hlive : liveNames (io :: rest) = io.1 :: liveNames rest := by
        simp [liveNames, List.isEmpty_iff, hoff]
      rw [hlive, List.countP_cons]
      by_cases hn : io.1 = name
      · simp [hn, Nat.add_assoc, Nat.add_comm, Nat.add_left_comm]
      · simp [hn, Nat.add_assoc]

theorem entryCount_foldl_mono (ios : List ItemOptions) (m : AssignmentMap)
    (t : ℚ) (l : String) (e : AssignmentEntry) :
    entryCount m l e ≤ entryCount (List.foldl assignUnlimitedStep (m, t) ios).1 l e := by
  induction ios generalizing m t with
  | nil => simp
  | cons io rest ih =>
    simp only [List.foldl_cons]
    rcases hmin : pyMin? (fun o => o.price_value) io.2 with _ | b
    · simp only [assignUnlimitedStep, hmin]
      exact ih m t
    · simp only [assignUnlimitedStep, hmin]
      refine le_trans ?_ (ih _ _)
      rw [entryCount_pushEntry]
      exact Nat.le_add_right _ _

theorem entryCount_foldl_mem (ios : List ItemOptions) (m : AssignmentMap)
    (t : ℚ) (io : ItemOptions) (hio : io ∈ ios) (b : StoreOption)
    (hb : pyMin? (fun o => o.price_value) io.2 = some b) :
    1 ≤ entryCount (List.foldl assignUnlimitedStep (m, t) ios).1
          (optionLabel b) (io.1, b.price_str, b.price_value) := by
  induction ios generalizing m t with
  | nil => exact absurd hio (List.not_mem_nil io)
  | cons io0 rest ih =>
    simp only [List.foldl_cons]
    rcases List.mem_cons.mp hio with rfl | hio'
    · simp only [assignUnlimitedStep, hb]
      refine le_trans ?_ (entryCount_foldl_mono rest _ _ _ _)
      rw [entryCount_pushEntry]
      simp
    · rcases hmin : pyMin? (fun o => o.price_value) io0.2 with _ | b0
      · simp only [assignUnlimitedStep, hmin]
        exact ih m t hio'
      · simp only [assignUnlimitedStep, hmin]
        exact ih _ _ hio'

/-- C2: the Unconstrained Assigner's total cost is the sum of per-item minimum
prices, and each item is assigned (one entry under the matching label) to the
first offer achieving that item's minimum price. -/
theorem C2_unconstrained_assigner (ios : List ItemOptions)
    (h : ∀ io ∈ ios, io.2 ≠ []) :
    (assign_unlimited ios).2 = specTotal ios ∧
    ∀ io ∈ ios, ∃ b pre post,
      pyMin? (fun o => o.price_value) io.2 = some b ∧
      io.2 = pre ++ b :: post ∧
      itemMin? io.2 = some b.price_value ∧
      (∀ y ∈ pre, b.price_value < y.price_value) ∧
      (∀ y ∈ post, b.price_value ≤ y.price_value) ∧
      1 ≤ entryCount (assign_unlimited ios).1 (optionLabel b)
            (io.1, b.price_str, b.price_value) := by
  constructor
  · have := assignUnlimited_foldl_snd ios [] 0
    simpa [assign_unlimited] using this
  · intro io hio
    obtain ⟨b, hb⟩ := pyMin?_isSome (fun o => o.price_value) io.2 (h io hio)
    obtain ⟨pre, post, h1, h2, h3⟩ := pyMin?_first _ io.2 b hb
    refine ⟨b, pre, post, hb, h1, pyMin?_eq_minQ _ _ _ hb, h2, h3, ?_⟩
    exact entryCount_foldl_mem ios [] 0 io hio b hb

/-! ### Constrained combinatorial assigner (`_find_best_combination`) -/

/-- Lexicographic comparison of character lists (Python string `<`). -/
def charListLt : List Char → List Char → Bool
  | [], [] => false
  | [], _ :: _ => true
  | _ :: _, [] => false
  | c :: cs, d :: ds =>
    if c < d then true else if d < c then false else charListLt cs ds

/-- Python string `<` (lexicographic by code point). -/
def strLt (s t : String) : Bool := charListLt s.data t.data

/-- Insert into a sorted duplicate-free list of strings (models building
`sorted({...})` over store labels). -/
def insertSorted (s : String) : List String → List String
  | [] => [s]
  | x :: xs =>
    if s = x then x :: xs
    else if strLt s x then s :: x :: xs
    else x :: insertSorted s xs

/-- Model of `sorted({store_label(o) for item in items for o in item.offers})`. -/
def storeLabels (ios : List ItemOptions) : List String :=
  ios.foldl (fun acc io => io.2.foldl (fun a o => insertSorted (optionLabel o) a) acc) []

/-- Model of `itertools.combinations(l, k)`: all length-`k` sublists in order. -/
def combinations : ℕ → List α → List (List α)
  | 0, _ => [[]]
  | _ + 1, [] => []
  | k + 1, x :: xs => (combinations k xs).map (x :: ·) ++ combinations (k + 1) xs

/-- Model of `sum(math.comb(n, r) for r in range(1, max_size + 1))`. -/
def comboCount (n maxSize : ℕ) : ℕ :=
  ((List.range maxSize).map (fun r => n.choose (r + 1))).sum

/-- The enumeration order of subsets: sizes 1..maxSize, each size in
lexicographic order over the sorted label list. -/
def allCombos (labels : List String) (maxSize : ℕ) : List (List String) :=
  (List.range maxSize).flatMap (fun i => combinations (i + 1) labels)

/-- Inner scan of one item's offers: keep the first offer whose label lies in
the combo, replace only on strictly smaller price (mirrors the
`best_option`/`best_label` loop). -/
def bestInComboAux (combo : List String) (acc : String × StoreOption) :
    List StoreOption → String × StoreOption
  | [] => acc
  | o :: os =>
    let l := optionLabel o
    if combo.contains l ∧ o.price_value < acc.2.price_value then
      bestInComboAux combo (l, o) os
    else
      bestInComboAux combo acc os

/-- First pass of the same loop, before any offer in the combo was seen. -/
def bestInCombo (combo : List String) : List StoreOption → Option (String × StoreOption)
  | [] => none
  | o :: os =>
    let l := optionLabel o
    if combo.contains l then some (bestInComboAux combo (l, o) os)
    else bestInCombo combo os

/-- Python `float('inf')` modelled as `none`: is `q` strictly below the best total? -/
def ltBest (q : ℚ) : Option ℚ → Bool
  | none => true
  | some b => decide (q < b)

/-- The test `total_cost >= best_total` against a possibly infinite best total. -/
def geBest (q : ℚ) : Option ℚ → Bool
  | none => false
  | some b => decide (b ≤ q)

/-- Per-combo loop over the items: accumulate assignment and running cost,
fail on an uncovered item, prune as soon as the running cost reaches the best
total found so far. -/
def comboAssign (combo : List String) (bestTotal : Option ℚ) :
    List ItemOptions → AssignmentMap → ℚ → Option (AssignmentMap × ℚ)
  | [], asg, total => some (asg, total)
  | io :: rest, asg, total =>
    match bestInCombo combo io.2 with
    | none => none
    | some (label, opt) =>
      let total' := total + opt.price_value
      if geBest total' bestTotal then none
      else
        comboAssign combo bestTotal rest
          (pushEntry asg label (io.1, opt.price_str, opt.price_value)) total'

/-- One step of the combo fold: evaluate the combo against the current best
total, record it as the new best on strict improvement. -/
def searchStep (ios : List ItemOptions) (best : Option (AssignmentMap × ℚ))
    (combo : List String) : Option (AssignmentMap × ℚ) :=
  match comboAssign combo (best.map Prod.snd) ios [] 0 with
  | none => best
  | some (asg, total) =>
    if ltBest total (best.map Prod.snd) then some (asg, total) else best

/-- Fold over the enumerated combos, keeping the best feasible assignment
(strict improvement only). -/
def searchCombos (ios : List ItemOptions) (combos : List (List String))
    (best : Option (AssignmentMap × ℚ)) : Option (AssignmentMap × ℚ) :=
  combos.foldl (searchStep ios) best

/-- Model of `PriceOptimizer._find_best_combination`.  `none` models the Python
`(None, None)` infeasibility signal. -/
def find_best_combination (ios : List ItemOptions) (max_stores : ℕ) :
    Option (AssignmentMap × ℚ) :=
  if (storeLabels ios).isEmpty then none
  else if (storeLabels ios).length ≤ min max_stores (storeLabels ios).length then
    some (assign_unlimited ios)
  else if 100000 <
      comboCount (storeLabels ios).length (min max_stores (storeLabels ios).length) then
    some (assign_unlimited ios)
  else
    searchCombos ios
      (allCombos (storeLabels ios) (min max_stores (storeLabels ios).length)) none

/-- Model of `PriceOptimizer._assign_items`: dispatch on `max_stores`, falling back to
the unconstrained assigner when the constrained search signals infeasibility. -/
def assign_items (ios : List ItemOptions) (max_stores : Option ℕ) :
    AssignmentMap × ℚ :=
  if ios.isEmpty then ([], 0)
  else
    match max_stores with
    | none => assign_unlimited ios
    | some k =>
      match find_best_combination ios k with
      | none => assign_unlimited ios
      | some r => r

/-! ### Spec-side notions for the constrained search -/

/-- Does the store subset `S` cover every item (each item has an offer whose
label lies in `S`)? -/
def coversB (S : List String) (ios : List ItemOptions) : Bool :=
  ios.all (fun io => io.2.any (fun o => S.contains (optionLabel o)))

/-- Cheapest price of an item restricted to stores in `S`. -/
def minPriceIn (S : List String) (offers : List StoreOption) : Option ℚ :=
  minQ? ((offers.filter (fun o => S.contains (optionLabel o))).map
    (fun o => o.price_value))

/-- Total cost of serving every item from the cheapest store of `S`
(uncovered items contribute 0; only meaningful under `coversB`). -/
def subsetCost (S : List String) (ios : List ItemOptions) : ℚ :=
  (ios.map (fun io => (minPriceIn S io.2).getD 0)).sum

/-! ### Correctness of the per-item scan -/

theorem filterLabel_cons_pos (combo : List String) (o : StoreOption)
    (os : List StoreOption) (hc : combo.contains (optionLabel o) = true) :
    (o :: os).filter (fun x => combo.contains (optionLabel x)) =
      o :: os.filter (fun x => combo.contains (optionLabel x)) := by
  rw [List.filter_cons]
  simp only [hc]
  rfl

theorem filterLabel_cons_neg (combo : List String) (o : StoreOption)
    (os : List StoreOption) (hc : ¬ combo.contains (optionLabel o) = true) :
    (o :: os).filter (fun x => combo.contains (optionLabel x)) =
      os.filter (fun x => combo.contains (optionLabel x)) := by
  rw [List.filter_cons]
  simp only [Bool.eq_false_iff.mpr hc]
  rfl

theorem bestInComboAux_price (combo : List String) (os : List StoreOption)
    (acc : String × StoreOption) :
    (bestInComboAux combo acc os).2.price_value =
      ((os.filter (fun o => combo.contains (optionLabel o))).map
        (fun o => o.price_value)).foldl min acc.2.price_value := by
  induction os generalizing acc with
  | nil => rfl
  | cons o os ih =>
    by_cases hc : combo.contains (optionLabel o) = true
    · by_cases hlt : o.price_value < acc.2.price_value
      · have hstep : bestInComboAux combo acc (o :: os) =
            bestInComboAux combo (optionLabel o, o) os := by
          simp only [bestInComboAux]
          rw [if_pos ⟨hc, hlt⟩]
        rw [hstep, ih]
        rw [filterLabel_cons_pos combo o os hc, List.map_cons, List.foldl_cons,
          min_eq_right (le_of_lt hlt)]
      · have hstep : bestInComboAux combo acc (o :: os) =
            bestInComboAux combo acc os := by
          simp only [bestInComboAux]
          rw [if_neg (fun hpair => hlt hpair.2)]
        rw [hstep, ih]
        rw [filterLabel_cons_pos combo o os hc, List.map_cons, List.foldl_cons,
          min_eq_left (le_of_not_lt hlt)]
    · have hstep : bestInComboAux combo acc (o :: os) =
          bestInComboAux combo acc os := by
        simp only [bestInComboAux]
        rw [if_neg (fun hpair => hc hpair.1)]
      rw [hstep, ih]
      rw [filterLabel_cons_neg combo o os hc]

theorem bestInComboAux_cases (combo : List String) (os : List StoreOption)
    (acc : String × StoreOption) :
    bestInComboAux combo acc os = acc ∨
    ∃ o ∈ os, combo.contains (optionLabel o) = true ∧
      bestInComboAux combo acc os = (optionLabel o, o) := by
  induction os generalizing acc with
  | nil => left; rfl
  | cons o os ih =>
    by_cases hcond : combo.contains (optionLabel o) = true ∧
        o.price_value < acc.2.price_value
    · have hstep : bestInComboAux combo acc (o :: os) =
          bestInComboAux combo (optionLabel o, o) os := by
        simp only [bestInComboAux]
        rw [if_pos hcond]
      rw [hstep]
      rcases ih (optionLabel o, o) with h | ⟨o', ho', hc', h⟩
      · right; exact ⟨o, List.mem_cons_self o os, hcond.1, h⟩
      · right; exact ⟨o', List.mem_cons_of_mem o ho', hc', h⟩
    · have hstep : bestInComboAux combo acc (o :: os) =
          bestInComboAux combo acc os := by
        simp only [bestInComboAux]
        rw [if_neg hcond]
      rw [hstep]
      rcases ih acc with h | ⟨o', ho', hc', h⟩
      · left; exact h
      · right; exact ⟨o', List.mem_cons_of_mem o ho', hc', h⟩

theorem bestInCombo_none_iff (combo : List String) (offers : List StoreOption) :
    bestInCombo combo offers = none ↔
      offers.any (fun o => combo.contains (optionLabel o)) = false := by
  induction offers with
  | nil => simp [bestInCombo]
  | cons o os ih =>
    by_cases hc : combo.contains (optionLabel o) = true
    · have hstep : bestInCombo combo (o :: os) =
          some (bestInComboAux combo (optionLabel o, o) os) := by
        simp only [bestInCombo]
        rw [if_pos hc]
      rw [hstep, List.any_cons, hc]
      simp
    · have hstep : bestInCombo combo (o :: os) = bestInCombo combo os := by
        simp only [bestInCombo]
        rw [if_neg hc]
      have hcf : combo.contains (optionLabel o) = false :=
        Bool.eq_false_iff.mpr hc
      rw [hstep, ih, List.any_cons, hcf]
      simp

theorem bestInCombo_some (combo : List String) (offers : List StoreOption)
    (l : String) (o : StoreOption)
    (h : bestInCombo combo offers = some (l, o)) :
    l = optionLabel o ∧ o ∈ offers ∧ combo.contains l = true ∧
      minPriceIn combo offers = some o.price_value := by
  induction offers with
  | nil => simp [bestInCombo] at h
  | cons o0 os ih =>
    by_cases hc : combo.contains (optionLabel o0) = true
    · have hstep : bestInCombo combo (o0 :: os) =
          some (bestInComboAux combo (optionLabel o0, o0) os) := by
        simp only [bestInCombo]
        rw [if_pos hc]
      rw [hstep, Option.some.injEq] at h
      have hmem : l = optionLabel o ∧ o ∈ o0 :: os ∧ combo.contains l = true := by
        rcases bestInComboAux_cases combo os (optionLabel o0, o0) with heq | ⟨o', ho', hc', heq⟩
        · rw [heq] at h
          cases h
          exact ⟨rfl, List.mem_cons_self _ _, hc⟩
        · rw [heq] at h
          cases h
          exact ⟨rfl, List.mem_cons_of_mem _ ho', hc'⟩
      refine ⟨hmem.1, hmem.2.1, hmem.2.2, ?_⟩
      have hprice : (bestInComboAux combo (optionLabel o0, o0) os).2.price_value =
          o.price_value := by rw [h]
      unfold minPriceIn
      rw [filterLabel_cons_pos combo o0 os hc, List.map_cons]
      show minQ? (o0.price_value :: _) = some o.price_value
      rw [← hprice, bestInComboAux_price]
      rfl
    · have hstep : bestInCombo combo (o0 :: os) = bestInCombo combo os := by
        simp only [bestInCombo]
        rw [if_neg hc]
      rw [hstep] at h
      obtain ⟨h1, h2, h3, h4⟩ := ih h
      refine ⟨h1, List.mem_cons_of_mem o0 h2, h3, ?_⟩
      unfold minPriceIn at h4 ⊢
      rw [filterLabel_cons_neg combo o0 os hc]
      exact h4

/-! ### Correctness of the per-combo loop -/

/-- Occurrences of a name in a list of names. -/
def nameCount (names : List String) (nm : String) : ℕ :=
  names.countP (fun x => decide (x = nm))

theorem coversB_cons (S : List String) (io : ItemOptions) (rest : List ItemOptions) :
    coversB S (io :: rest) =
      (io.2.any (fun o => S.contains (optionLabel o)) && coversB S rest) := by
  simp [coversB]

theorem subsetCost_cons (S : List String) (io : ItemOptions)
    (rest : List ItemOptions) :
    subsetCost S (io :: rest) = (minPriceIn S io.2).getD 0 + subsetCost S rest := by
  simp [subsetCost]

theorem minPriceIn_nonneg (S : List String) (offers : List StoreOption)
    (hnn : ∀ o ∈ offers, 0 ≤ o.price_value) (p : ℚ)
    (hp : minPriceIn S offers = some p) : 0 ≤ p := by
  obtain ⟨hmem, -⟩ := minQ?_le _ p hp
  obtain ⟨o, ho, rfl⟩ := List.mem_map.mp hmem
  exact hnn o (List.mem_filter.mp ho).1

theorem subsetCost_nonneg (S : List String) (ios : List ItemOptions)
    (hnn : ∀ io ∈ ios, ∀ o ∈ io.2, 0 ≤ o.price_value) :
    0 ≤ subsetCost S ios := by
  apply List.sum_nonneg
  intro x hx
  obtain ⟨io, hio, rfl⟩ := List.mem_map.mp hx
  rcases hp : minPriceIn S io.2 with _ | p
  · simp
  · simpa using minPriceIn_nonneg S io.2 (hnn io hio) p hp

theorem bestInCombo_isSome_of_any (combo : List String) (offers : List StoreOption)
    (h : offers.any (fun o => combo.contains (optionLabel o)) = true) :
    ∃ l o, bestInCombo combo offers = some (l, o) := by
  rcases hb : bestInCombo combo offers with _ | lo
  · rw [(bestInCombo_none_iff combo offers).mp hb] at h
    cases h
  · obtain ⟨l, o⟩ := lo
    exact ⟨l, o, rfl⟩

theorem any_of_bestInCombo_some (combo : List String) (offers : List StoreOption)
    (l : String) (o : StoreOption) (h : bestInCombo combo offers = some (l, o)) :
    offers.any (fun x => combo.contains (optionLabel x)) = true := by
  cases ha : offers.any (fun x => combo.contains (optionLabel x)) with
  | false =>
    have h0 := (bestInCombo_none_iff combo offers).mpr ha
    rw [h0] at h
    cases h
  | true => rfl

theorem geBest_mono (q q' : ℚ) (bt : Option ℚ) (h : geBest q bt = true)
    (hle : q ≤ q') : geBest q' bt = true := by
  cases bt with
  | none => simp [geBest] at h
  | some b =>
    simp only [geBest, decide_eq_true_eq] at h ⊢
    exact le_trans h hle

theorem geBest_eq_false_of_ltBest (q q' : ℚ) (bt : Option ℚ)
    (h : ltBest q' bt = true) (hle : q ≤ q') : geBest q bt = false := by
  cases bt with
  | none => rfl
  | some b =>
    simp only [ltBest, decide_eq_true_eq] at h
    simp only [geBest, decide_eq_false_iff_not, not_le]
    exact lt_of_le_of_lt hle h

theorem comboAssign_cons (combo : List String) (bt : Option ℚ)
    (io : ItemOptions) (rest : List ItemOptions) (asg : AssignmentMap)
    (total : ℚ) :
    comboAssign combo bt (io :: rest) asg total =
      match bestInCombo combo io.2 with
      | none => none
      | some (label, opt) =>
        if geBest (total + opt.price_value) bt then none
        else
          comboAssign combo bt rest
            (pushEntry asg label (io.1, opt.price_str, opt.price_value))
            (total + opt.price_value) := rfl

/-- Soundness of a successful combo evaluation: the subset covers every item,
the returned total is the running total plus the true subset cost, and the
assignment gained exactly one entry per item. -/
theorem comboAssign_some (combo : List String) (bt : Option ℚ)
    (ios : List ItemOptions) (asg asg' : AssignmentMap) (total t' : ℚ)
    (h : comboAssign combo bt ios asg total = some (asg', t')) :
    coversB combo ios = true ∧ t' = total + subsetCost combo ios ∧
    ∀ name, itemCount asg' name =
      itemCount asg name + nameCount (ios.map Prod.fst) name := by
  induction ios generalizing asg total with
  | nil =>
    simp only [comboAssign, Option.some.injEq] at h
    cases h
    refine ⟨rfl, by simp [subsetCost], ?_⟩
    intro name
    simp [nameCount]
  | cons io rest ih =>
    rw [comboAssign_cons] at h
    rcases hbest : bestInCombo combo io.2 with _ | lo
    · rw [hbest] at h
      exact absurd h (by exact fun hc => Option.noConfusion hc)
    · obtain ⟨label, opt⟩ := lo
      rw [hbest] at h
      have h' : (if geBest (total + opt.price_value) bt = true then none
          else comboAssign combo bt rest
            (pushEntry asg label (io.1, opt.price_str, opt.price_value))
            (total + opt.price_value)) = some (asg', t') := h
      rcases hg : geBest (total + opt.price_value) bt with _ | _
      · rw [hg, if_neg Bool.false_ne_true] at h'
        obtain ⟨hcov, hcost, hcnt⟩ := ih _ _ h'
        have hb := bestInCombo_some combo io.2 label opt hbest
        have hany := any_of_bestInCombo_some combo io.2 label opt hbest
        refine ⟨?_, ?_, ?_⟩
        · rw [coversB_cons, hany, hcov]; rfl
        · rw [hcost, subsetCost_cons, hb.2.2.2, Option.getD_some]; ring
        · intro name
          rw [hcnt name, itemCount_pushEntry]
          simp only [List.map_cons, nameCount, List.countP_cons]
          by_cases hn : io.1 = name
          · simp [hn, Nat.add_assoc, Nat.add_comm, Nat.add_left_comm]
          · simp [hn, Nat.add_assoc]
      · rw [hg, if_pos rfl] at h'
        cases h'

/-- Completeness with pruning: with non-negative prices, a covering subset
whose true cost stays strictly below the best total is never pruned. -/
theorem comboAssign_complete (combo : List String) (bt : Option ℚ)
    (ios : List ItemOptions) (asg : AssignmentMap) (total : ℚ)
    (hnn : ∀ io ∈ ios, ∀ o ∈ io.2, 0 ≤ o.price_value)
    (hcov : coversB combo ios = true)
    (hlt : ltBest (total + subsetCost combo ios) bt = true) :
    ∃ asg', comboAssign combo bt ios asg total =
      some (asg', total + subsetCost combo ios) := by
  induction ios generalizing asg total with
  | nil =>
    refine ⟨asg, ?_⟩
    simp [comboAssign, subsetCost]
  | cons io rest ih =>
    rw [coversB_cons] at hcov
    obtain ⟨hany, hcovr⟩ := Bool.and_eq_true_iff.mp hcov
    obtain ⟨label, opt, hbest⟩ := bestInCombo_isSome_of_any combo io.2 hany
    have hb := bestInCombo_some combo io.2 label opt hbest
    have hrestnn : ∀ io' ∈ rest, ∀ o ∈ io'.2, 0 ≤ o.price_value :=
      fun io' hio' => hnn io' (List.mem_cons_of_mem io hio')
    have hcostr : 0 ≤ subsetCost combo rest := subsetCost_nonneg combo rest hrestnn
    have hfull : total + subsetCost combo (io :: rest) =
        (total + opt.price_value) + subsetCost combo rest := by
      rw [subsetCost_cons, hb.2.2.2, Option.getD_some]; ring
    have hg : geBest (total + opt.price_value) bt = false := by
      refine geBest_eq_false_of_ltBest _ (total + subsetCost combo (io :: rest)) bt hlt ?_
      rw [hfull]
      exact le_add_of_nonneg_right hcostr
    rw [hfull] at hlt
    obtain ⟨asg', hrec⟩ := ih
      (pushEntry asg label (io.1, opt.price_str, opt.price_value))
      (total + opt.price_value) hrestnn hcovr hlt
    refine ⟨asg', ?_⟩
    rw [comboAssign_cons, hbest]
    show (if geBest (total + opt.price_value) bt = true then none
        else comboAssign combo bt rest
          (pushEntry asg label (io.1, opt.price_str, opt.price_value))
          (total + opt.price_value)) = _
    rw [hg, if_neg Bool.false_ne_true, hrec, hfull]

/-- Pruning soundness: with non-negative prices, a combo evaluation can only
fail because the subset does not cover some item, or because its true cost
already reaches the best total found so far. -/
theorem comboAssign_none (combo : List String) (bt : Option ℚ)
    (ios : List ItemOptions) (asg : AssignmentMap) (total : ℚ)
    (hnn : ∀ io ∈ ios, ∀ o ∈ io.2, 0 ≤ o.price_value)
    (h : comboAssign combo bt ios asg total = none) :
    coversB combo ios = false ∨
      geBest (total + subsetCost combo ios) bt = true := by
  induction ios generalizing asg total with
  | nil => simp [comboAssign] at h
  | cons io rest ih =>
    rw [comboAssign_cons] at h
    rcases hbest : bestInCombo combo io.2 with _ | lo
    · left
      rw [coversB_cons, (bestInCombo_none_iff combo io.2).mp hbest]
      rfl
    · obtain ⟨label, opt⟩ := lo
      rw [hbest] at h
      have h' : (if geBest (total + opt.price_value) bt = true then none
          else comboAssign combo bt rest
            (pushEntry asg label (io.1, opt.price_str, opt.price_value))
            (total + opt.price_value)) = none := h
      have hb := bestInCombo_some combo io.2 label opt hbest
      have hrestnn : ∀ io' ∈ rest, ∀ o ∈ io'.2, 0 ≤ o.price_value :=
        fun io' hio' => hnn io' (List.mem_cons_of_mem io hio')
      have hfull : total + subsetCost combo (io :: rest) =
          (total + opt.price_value) + subsetCost combo rest := by
        rw [subsetCost_cons, hb.2.2.2, Option.getD_some]; ring
      rcases hg : geBest (total + opt.price_value) bt with _ | _
      · rw [hg, if_neg Bool.false_ne_true] at h'
        rcases ih _ _ hrestnn h' with hcf | hge
        · left
          rw [coversB_cons, hcf]
          simp
        · right
          rw [hfull]
          exact hge
      · rcases hcr : coversB combo rest with _ | _
        · left
          rw [coversB_cons, hcr]
          simp
        · right
          rw [hfull]
          refine geBest_mono _ _ bt (by rw [hg]) ?_
          exact le_add_of_nonneg_right (subsetCost_nonneg combo rest hrestnn)

/-! ### Invariant of the fold over the enumerated subsets -/

/-- Invariant of the combo fold: if no best is recorded, none of the processed
subsets covers all items; if a best `(a, c)` is recorded, it was produced by a
full combo evaluation, some processed covering subset has true cost `c`, and
`c` is a lower bound on the true cost of every processed covering subset. -/
def SearchInv (ios : List ItemOptions) (done : List (List String)) :
    Option (AssignmentMap × ℚ) → Prop
  | none => ∀ S ∈ done, coversB S ios = false
  | some (a, c) =>
      (∃ S bt, comboAssign S bt ios [] 0 = some (a, c)) ∧
      (∃ S, S ∈ done ∧ coversB S ios = true ∧ subsetCost S ios = c) ∧
      (∀ S ∈ done, coversB S ios = true → c ≤ subsetCost S ios)

theorem SearchInv_none_iff (ios : List ItemOptions) (done : List (List String)) :
    SearchInv ios done none ↔ ∀ S ∈ done, coversB S ios = false := Iff.rfl

theorem SearchInv_some_iff (ios : List ItemOptions) (done : List (List String))
    (a : AssignmentMap) (c : ℚ) :
    SearchInv ios done (some (a, c)) ↔
      ((∃ S bt, comboAssign S bt ios [] 0 = some (a, c)) ∧
      (∃ S, S ∈ done ∧ coversB S ios = true ∧ subsetCost S ios = c) ∧
      (∀ S ∈ done, coversB S ios = true → c ≤ subsetCost S ios)) := Iff.rfl

theorem searchStep_inv (ios : List ItemOptions) (done : List (List String))
    (best : Option (AssignmentMap × ℚ)) (combo : List String)
    (hnn : ∀ io ∈ ios, ∀ o ∈ io.2, 0 ≤ o.price_value)
    (hinv : SearchInv ios done best) :
    SearchInv ios (done ++ [combo]) (searchStep ios best combo) := by
  rcases hca : comboAssign combo (best.map Prod.snd) ios [] 0 with _ | at_
  · have hstep : searchStep ios best combo = best := by
      unfold searchStep; rw [hca]
    rw [hstep]
    rcases best with _ | ⟨a, c⟩
    · rw [SearchInv_none_iff] at hinv ⊢
      rcases comboAssign_none combo none ios [] 0 hnn hca with hcf | hge
      · intro S hS
        rcases List.mem_append.mp hS with hS | hS
        · exact hinv S hS
        · have hSc : S = combo := List.mem_singleton.mp hS
          rw [hSc]; exact hcf
      · cases hge
    · rw [SearchInv_some_iff] at hinv ⊢
      obtain ⟨hw, ⟨S0, hS0, hc0, he0⟩, hmin⟩ := hinv
      refine ⟨hw, ⟨S0, List.mem_append_left _ hS0, hc0, he0⟩, ?_⟩
      intro S hS hScov
      rcases List.mem_append.mp hS with hS | hS
      · exact hmin S hS hScov
      · have hSc : S = combo := List.mem_singleton.mp hS
        rw [hSc] at hScov ⊢
        rcases comboAssign_none combo (some c) ios [] 0 hnn hca with hcf | hge
        · rw [hScov] at hcf; cases hcf
        · have hge2 : decide (c ≤ 0 + subsetCost combo ios) = true := hge
          calc c ≤ 0 + subsetCost combo ios := of_decide_eq_true hge2
            _ = subsetCost combo ios := by ring
  · obtain ⟨asg, total⟩ := at_
    have hred : searchStep ios best combo =
        if ltBest total (best.map Prod.snd) = true then some (asg, total)
        else best := by
      unfold searchStep; rw [hca]
    obtain ⟨hcov, hcost, -⟩ := comboAssign_some _ _ _ _ _ _ _ hca
    have hcost' : total = subsetCost combo ios := by rw [hcost]; ring
    rcases hlt : ltBest total (best.map Prod.snd) with _ | _
    · rw [hred, hlt, if_neg Bool.false_ne_true]
      rcases best with _ | ⟨a, c⟩
      · simp [ltBest] at hlt
      · rw [SearchInv_some_iff] at hinv ⊢
        obtain ⟨hw, ⟨S0, hS0, hc0, he0⟩, hmin⟩ := hinv
        have hlt2 : decide (total < c) = false := hlt
        have hle : c ≤ total := le_of_not_lt (of_decide_eq_false hlt2)
        refine ⟨hw, ⟨S0, List.mem_append_left _ hS0, hc0, he0⟩, ?_⟩
        intro S hS hScov
        rcases List.mem_append.mp hS with hS | hS
        · exact hmin S hS hScov
        · have hSc : S = combo := List.mem_singleton.mp hS
          rw [hSc, ← hcost']
          exact hle
    · rw [hred, hlt, if_pos rfl, SearchInv_some_iff]
      refine ⟨⟨combo, best.map Prod.snd, hca⟩,
        ⟨combo, List.mem_append_right _ (List.mem_singleton_self _), hcov, hcost'.symm⟩, ?_⟩
      intro S hS hScov
      rcases List.mem_append.mp hS with hS | hS
      · rcases best with _ | ⟨a, c⟩
        · rw [SearchInv_none_iff] at hinv
          rw [hinv S hS] at hScov; cases hScov
        · rw [SearchInv_some_iff] at hinv
          obtain ⟨-, -, hmin⟩ := hinv
          have hlt2 : decide (total < c) = true := hlt
          exact le_trans (le_of_lt (of_decide_eq_true hlt2)) (hmin S hS hScov)
      · have hSc : S = combo := List.mem_singleton.mp hS
        rw [hSc, ← hcost']

theorem searchFold_inv (ios : List ItemOptions)
    (hnn : ∀ io ∈ ios, ∀ o ∈ io.2, 0 ≤ o.price_value) :
    ∀ (combos : List (List String)) (done : List (List String))
      (best : Option (AssignmentMap × ℚ)), SearchInv ios done best →
      SearchInv ios (done ++ combos) (combos.foldl (searchStep ios) best) := by
  intro combos
  induction combos with
  | nil => intro done best h; simpa using h
  | cons c cs ih =>
    intro done best h
    have h1 := searchStep_inv ios done best c hnn h
    have h2 := ih (done ++ [c]) (searchStep ios best c) h1
    rw [List.append_assoc] at h2
    simpa using h2

theorem searchCombos_inv (ios : List ItemOptions) (combos : List (List String))
    (hnn : ∀ io ∈ ios, ∀ o ∈ io.2, 0 ≤ o.price_value) :
    SearchInv ios combos (searchCombos ios combos none) := by
  have h0 : SearchInv ios [] none := by
    intro S hS
    exact absurd hS (List.not_mem_nil S)
  have := searchFold_inv ios hnn combos [] none h0
  simpa [searchCombos] using this

/-! ### Completeness of the subset enumeration -/

theorem mem_combinations_iff {α : Type} (l : List α) :
    ∀ (k : ℕ) (S : List α), S ∈ combinations k l ↔ S.Sublist l ∧ S.length = k := by
  induction l with
  | nil =>
    intro k S
    cases k with
    | zero =>
      simp only [combinations, List.mem_singleton]
      constructor
      · rintro rfl; exact ⟨List.Sublist.refl [], rfl⟩
      · rintro ⟨hs, hl⟩
        exact List.eq_nil_of_length_eq_zero hl
    | succ k =>
      simp only [combinations, List.not_mem_nil, false_iff, not_and]
      intro hs hl
      rw [List.sublist_nil.mp hs] at hl
      cases hl
  | cons x xs ih =>
    intro k S
    cases k with
    | zero =>
      simp only [combinations, List.mem_singleton]
      constructor
      · rintro rfl; exact ⟨List.nil_sublist _, rfl⟩
      · rintro ⟨hs, hl⟩
        exact List.eq_nil_of_length_eq_zero hl
    | succ k =>
      simp only [combinations, List.mem_append, List.mem_map]
      constructor
      · rintro (⟨S', hS', rfl⟩ | hS)
        · obtain ⟨hs, hl⟩ := (ih k S').mp hS'
          exact ⟨List.Sublist.cons₂ x hs, by simp [hl]⟩
        · obtain ⟨hs, hl⟩ := (ih (k + 1) S).mp hS
          exact ⟨List.Sublist.cons x hs, hl⟩
      · rintro ⟨hs, hl⟩
        cases hs with
        | cons _ h => exact Or.inr ((ih (k + 1) S).mpr ⟨h, hl⟩)
        | cons₂ _ h =>
          left
          refine ⟨_, (ih k _).mpr ⟨h, ?_⟩, rfl⟩
          simpa using hl

theorem mem_allCombos_iff (labels : List String) (maxSize : ℕ) (S : List String) :
    S ∈ allCombos labels maxSize ↔
      S.Sublist labels ∧ 1 ≤ S.length ∧ S.length ≤ maxSize := by
  unfold allCombos
  rw [List.mem_flatMap]
  constructor
  · rintro ⟨i, hi, hS⟩
    obtain ⟨hs, hl⟩ := (mem_combinations_iff labels (i + 1) S).mp hS
    rw [List.mem_range] at hi
    exact ⟨hs, by omega, by omega⟩
  · rintro ⟨hs, h1, h2⟩
    refine ⟨S.length - 1, ?_, (mem_combinations_iff labels _ S).mpr ⟨hs, by omega⟩⟩
    rw [List.mem_range]
    omega

/-- If every item has no offer, no store label is collected. -/
theorem storeLabels_eq_nil (ios : List ItemOptions)
    (h : ∀ io ∈ ios, io.2 = []) : storeLabels ios = [] := by
  unfold storeLabels
  have hgen : ∀ (l : List ItemOptions) (acc : List String),
      (∀ io ∈ l, io.2 = []) →
      l.foldl (fun acc io => io.2.foldl (fun a o => insertSorted (optionLabel o) a) acc) acc = acc := by
    intro l
    induction l with
    | nil => intro acc _; rfl
    | cons io rest ihl =>
      intro acc hall
      rw [List.foldl_cons, hall io (List.mem_cons_self _ _)]
      exact ihl acc (fun io' hio' => hall io' (List.mem_cons_of_mem _ hio'))
  exact hgen ios [] h

/-- With a nonempty working set, the empty store subset covers nothing. -/
theorem coversB_nil_left (ios : List ItemOptions) (h : ios ≠ []) :
    coversB [] ios = false := by
  match ios with
  | [] => exact absurd rfl h
  | io :: rest =>
    rw [coversB_cons]
    have hany : io.2.any (fun o => ([] : List String).contains (optionLabel o)) = false := by
      induction io.2 with
      | nil => rfl
      | cons o os iho => rw [List.any_cons, iho]; rfl
    rw [hany]
    rfl

/-! ### Branch analysis of `_find_best_combination` and `_assign_items` -/

theorem isEmpty_false_of_ne_nil {α : Type} (l : List α) (h : l ≠ []) :
    l.isEmpty = false := by
  cases l with
  | nil => exact absurd rfl h
  | cons x xs => rfl

theorem find_best_eq_search (ios : List ItemOptions) (K : ℕ)
    (h2 : K < (storeLabels ios).length)
    (h3 : comboCount (storeLabels ios).length K ≤ 100000) :
    find_best_combination ios K =
      searchCombos ios (allCombos (storeLabels ios) K) none := by
  have hne : storeLabels ios ≠ [] := by
    intro hc
    rw [hc] at h2
    simp at h2
  have hmin : min K (storeLabels ios).length = K := Nat.min_eq_left (le_of_lt h2)
  unfold find_best_combination
  rw [hmin, isEmpty_false_of_ne_nil _ hne, if_neg Bool.false_ne_true,
    if_neg (by omega), if_neg (by omega)]

theorem assign_items_cons (io : ItemOptions) (rest : List ItemOptions) (K : ℕ) :
    assign_items (io :: rest) (some K) =
      match find_best_combination (io :: rest) K with
      | none => assign_unlimited (io :: rest)
      | some r => r := by
  unfold assign_items
  rw [show (io :: rest).isEmpty = false from rfl, if_neg Bool.false_ne_true]

/-- C1: whenever the exact constrained search actually runs and some subset of
at most `K` stores covers every item, the search returns the minimum, over all
covering sublists of the candidate store list of size at most `K`, of the sum
over items of the cheapest offer price within the subset; in particular the
branch-and-bound pruning never loses this minimum. -/
theorem C1_constrained_search_optimal (ios : List ItemOptions) (K : ℕ)
    (hK : 1 ≤ K) (hlt : K < (storeLabels ios).length)
    (hcount : comboCount (storeLabels ios).length K ≤ 100000)
    (hnn : ∀ io ∈ ios, ∀ o ∈ io.2, 0 ≤ o.price_value)
    (S₀ : List String) (hS₀sub : S₀.Sublist (storeLabels ios))
    (hS₀len : S₀.length ≤ K) (hS₀cov : coversB S₀ ios = true) :
    ∃ asg c, find_best_combination ios K = some (asg, c) ∧
      (∃ S, S.Sublist (storeLabels ios) ∧ S.length ≤ K ∧ coversB S ios = true ∧
        subsetCost S ios = c) ∧
      (∀ S, S.Sublist (storeLabels ios) → S.length ≤ K → coversB S ios = true →
        c ≤ subsetCost S ios) := by
  have hne : storeLabels ios ≠ [] := by
    intro hc
    rw [hc] at hlt
    simp at hlt
  have hios : ios ≠ [] := by
    intro hc
    rw [hc] at hne
    exact hne (storeLabels_eq_nil [] (by intro io hio; cases hio))
  have hS₀ne : S₀ ≠ [] := by
    intro hc
    rw [hc, coversB_nil_left ios hios] at hS₀cov
    cases hS₀cov
  have hS₀mem : S₀ ∈ allCombos (storeLabels ios) K :=
    (mem_allCombos_iff _ _ _).mpr ⟨hS₀sub, List.length_pos.mpr hS₀ne, hS₀len⟩
  rw [find_best_eq_search ios K hlt hcount]
  have hinv := searchCombos_inv ios (allCombos (storeLabels ios) K) hnn
  rcases hres : searchCombos ios (allCombos (storeLabels ios) K) none with _ | ac
  · rw [hres, SearchInv_none_iff] at hinv
    rw [hinv S₀ hS₀mem] at hS₀cov
    cases hS₀cov
  · obtain ⟨a, c⟩ := ac
    rw [hres, SearchInv_some_iff] at hinv
    obtain ⟨-, ⟨S1, hS1mem, hS1cov, hS1cost⟩, hmin⟩ := hinv
    obtain ⟨hs1, h11, h12⟩ := (mem_allCombos_iff _ _ _).mp hS1mem
    refine ⟨a, c, rfl, ⟨S1, hs1, h12, hS1cov, hS1cost⟩, ?_⟩
    intro S hSsub hSlen hScov
    have hSne : S ≠ [] := by
      intro hc
      rw [hc, coversB_nil_left ios hios] at hScov
      cases hScov
    exact hmin S
      ((mem_allCombos_iff _ _ _).mpr ⟨hSsub, List.length_pos.mpr hSne, hSlen⟩) hScov

/-- C3: as soon as `K` reaches the number of distinct store labels, the
constrained assigner is exactly the unconstrained assigner (same map, same
total). -/
theorem C3_vacuous_constraint (ios : List ItemOptions) (K : ℕ)
    (hK : (storeLabels ios).length ≤ K) :
    assign_items ios (some K) = assign_unlimited ios := by
  cases ios with
  | nil => rfl
  | cons io rest =>
    rw [assign_items_cons]
    by_cases hl : storeLabels (io :: rest) = []
    · have hfb : find_best_combination (io :: rest) K = none := by
        unfold find_best_combination
        rw [hl]
        rfl
      rw [hfb]
    · have hfb : find_best_combination (io :: rest) K =
          some (assign_unlimited (io :: rest)) := by
        unfold find_best_combination
        rw [isEmpty_false_of_ne_nil _ hl, if_neg Bool.false_ne_true,
          if_pos (by rw [Nat.min_eq_right hK])]
      rw [hfb]

/-- C4: when `1 ≤ K < n` but the number of subsets to examine exceeds the
100000 ceiling, the exact search is skipped and the result is exactly the
unconstrained assignment (not a failure, not an empty result). -/
theorem C4_ceiling_fallback (ios : List ItemOptions) (K : ℕ) (hK : 1 ≤ K)
    (hlt : K < (storeLabels ios).length)
    (hbig : 100000 < comboCount (storeLabels ios).length K) :
    find_best_combination ios K = some (assign_unlimited ios) ∧
    assign_items ios (some K) = assign_unlimited ios := by
  have hne : storeLabels ios ≠ [] := by
    intro hc
    rw [hc] at hlt
    simp at hlt
  have hmin : min K (storeLabels ios).length = K := Nat.min_eq_left (le_of_lt hlt)
  have hfb : find_best_combination ios K = some (assign_unlimited ios) := by
    unfold find_best_combination
    rw [hmin, isEmpty_false_of_ne_nil _ hne, if_neg Bool.false_ne_true,
      if_neg (by omega), if_pos hbig]
  refine ⟨hfb, ?_⟩
  cases ios with
  | nil =>
    rw [show storeLabels ([] : List ItemOptions) = [] from rfl] at hne
    exact absurd rfl hne
  | cons io rest =>
    rw [assign_items_cons, hfb]

/-- C5: when no store subset of size at most `K` covers every item, the exact
search (when it runs) signals infeasibility, and the overall dispatch always
returns exactly the unconstrained assignment — never an empty or partial one. -/
theorem C5_infeasible_fallback (ios : List ItemOptions) (K : ℕ) (hK : 1 ≤ K)
    (hnn : ∀ io ∈ ios, ∀ o ∈ io.2, 0 ≤ o.price_value)
    (hnocov : ∀ S, S.Sublist (storeLabels ios) → S.length ≤ K →
      coversB S ios = false) :
    assign_items ios (some K) = assign_unlimited ios ∧
    (K < (storeLabels ios).length →
      comboCount (storeLabels ios).length K ≤ 100000 →
      find_best_combination ios K = none) := by
  have hsearch : K < (storeLabels ios).length →
      comboCount (storeLabels ios).length K ≤ 100000 →
      find_best_combination ios K = none := by
    intro h2 h3
    rw [find_best_eq_search ios K h2 h3]
    have hinv := searchCombos_inv ios (allCombos (storeLabels ios) K) hnn
    rcases hres : searchCombos ios (allCombos (storeLabels ios) K) none with _ | ac
    · rfl
    · obtain ⟨a, c⟩ := ac
      rw [hres, SearchInv_some_iff] at hinv
      obtain ⟨-, ⟨S1, hS1mem, hS1cov, -⟩, -⟩ := hinv
      obtain ⟨hs1, -, h12⟩ := (mem_allCombos_iff _ _ _).mp hS1mem
      rw [hnocov S1 hs1 h12] at hS1cov
      cases hS1cov
  refine ⟨?_, hsearch⟩
  cases ios with
  | nil => rfl
  | cons io rest =>
    rw [assign_items_cons]
    by_cases hl : storeLabels (io :: rest) = []
    · have hfb : find_best_combination (io :: rest) K = none := by
        unfold find_best_combination
        rw [hl]
        rfl
      rw [hfb]
    · by_cases h2 : K < (storeLabels (io :: rest)).length
      · by_cases h3 : comboCount (storeLabels (io :: rest)).length K ≤ 100000
        · rw [hsearch h2 h3]
        · have hmin : min K (storeLabels (io :: rest)).length = K :=
            Nat.min_eq_left (le_of_lt h2)
          have hfb : find_best_combination (io :: rest) K =
              some (assign_unlimited (io :: rest)) := by
            unfold find_best_combination
            rw [hmin, isEmpty_false_of_ne_nil _ hl, if_neg Bool.false_ne_true,
              if_neg (by omega), if_pos (by omega)]
          rw [hfb]
      · have hfb : find_best_combination (io :: rest) K =
            some (assign_unlimited (io :: rest)) := by
          unfold find_best_combination
          rw [isEmpty_false_of_ne_nil _ hl, if_neg Bool.false_ne_true,
            if_pos (by rw [Nat.min_eq_right (by omega)])]
        rw [hfb]

/-! ### Where a recorded best assignment comes from -/

theorem searchStep_some_src (ios : List ItemOptions)
    (best : Option (AssignmentMap × ℚ)) (combo : List String)
    (a : AssignmentMap) (c : ℚ) (h : searchStep ios best combo = some (a, c)) :
    best = some (a, c) ∨
      ∃ bt, comboAssign combo bt ios [] 0 = some (a, c) := by
  unfold searchStep at h
  rcases hca : comboAssign combo (best.map Prod.snd) ios [] 0 with _ | at_
  · rw [hca] at h
    exact Or.inl h
  · obtain ⟨asg, total⟩ := at_
    rw [hca] at h
    have h' : (if ltBest total (best.map Prod.snd) = true then some (asg, total)
        else best) = some (a, c) := h
    rcases hlt : ltBest total (best.map Prod.snd) with _ | _
    · rw [hlt, if_neg Bool.false_ne_true] at h'
      exact Or.inl h'
    · rw [hlt, if_pos rfl] at h'
      right
      exact ⟨best.map Prod.snd, by rw [hca, h']⟩

theorem searchFold_some_src (ios : List ItemOptions) :
    ∀ (combos : List (List String)) (best : Option (AssignmentMap × ℚ))
      (a : AssignmentMap) (c : ℚ),
      combos.foldl (searchStep ios) best = some (a, c) →
      best = some (a, c) ∨ ∃ S bt, comboAssign S bt ios [] 0 = some (a, c) := by
  intro combos
  induction combos with
  | nil =>
    intro best a c h
    exact Or.inl h
  | cons combo cs ih =>
    intro best a c h
    rw [List.foldl_cons] at h
    rcases ih (searchStep ios best combo) a c h with h1 | h1
    · rcases searchStep_some_src ios best combo a c h1 with h2 | ⟨bt, h2⟩
      · exact Or.inl h2
      · exact Or.inr ⟨combo, bt, h2⟩
    · exact Or.inr h1

theorem find_best_some_src (ios : List ItemOptions) (K : ℕ) (a : AssignmentMap)
    (c : ℚ) (h : find_best_combination ios K = some (a, c)) :
    (a, c) = assign_unlimited ios ∨
      ∃ S bt, comboAssign S bt ios [] 0 = some (a, c) := by
  unfold find_best_combination at h
  by_cases h1 : (storeLabels ios).isEmpty = true
  · rw [if_pos h1] at h
    cases h
  · rw [if_neg h1] at h
    by_cases h2 : (storeLabels ios).length ≤ min K (storeLabels ios).length
    · rw [if_pos h2] at h
      exact Or.inl (Option.some.injEq _ _ ▸ h).symm
    · rw [if_neg h2] at h
      by_cases h3 : 100000 <
          comboCount (storeLabels ios).length (min K (storeLabels ios).length)
      · rw [if_pos h3] at h
        exact Or.inl (Option.some.injEq _ _ ▸ h).symm
      · rw [if_neg h3] at h
        rcases searchFold_some_src ios _ none a c h with h4 | h4
        · cases h4
        · exact Or.inr h4

theorem liveNames_eq (ios : List ItemOptions) (h : ∀ io ∈ ios, io.2 ≠ []) :
    liveNames ios = ios.map Prod.fst := by
  induction ios with
  | nil => rfl
  | cons io rest ih =>
    have hoff : io.2 ≠ [] := h io (List.mem_cons_self _ _)
    have hlive : liveNames (io :: rest) = io.1 :: liveNames rest := by
      simp [liveNames, List.isEmpty_iff, hoff]
    rw [hlive, List.map_cons, ih (fun io' hio' => h io' (List.mem_cons_of_mem _ hio'))]

theorem itemCount_assign_unlimited (ios : List ItemOptions)
    (h : ∀ io ∈ ios, io.2 ≠ []) (name : String) :
    itemCount (assign_unlimited ios).1 name = nameCount (ios.map Prod.fst) name := by
  have h1 := assignUnlimited_foldl_itemCount ios [] 0 name
  rw [liveNames_eq ios h] at h1
  have h2 : itemCount ([] : AssignmentMap) name = 0 := rfl
  rw [h2] at h1
  simpa [assign_unlimited, nameCount] using h1

theorem assign_items_none (ios : List ItemOptions) :
    assign_items ios none = assign_unlimited ios := by
  cases ios with
  | nil => rfl
  | cons io rest => rfl

/-- C9: every item of the working set (each with at least one offer) lands in
exactly one store entry list, once per occurrence — under both the
unconstrained dispatch and any constrained dispatch. -/
theorem C9_every_item_exactly_once (ios : List ItemOptions) (mk : Option ℕ)
    (name : String) (h : ∀ io ∈ ios, io.2 ≠ []) :
    itemCount (assign_items ios mk).1 name = nameCount (ios.map Prod.fst) name := by
  cases mk with
  | none =>
    rw [assign_items_none]
    exact itemCount_assign_unlimited ios h name
  | some K =>
    cases ios with
    | nil => rfl
    | cons io rest =>
      rw [assign_items_cons]
      rcases hfb : find_best_combination (io :: rest) K with _ | ac
      · exact itemCount_assign_unlimited _ h name
      · obtain ⟨a, c⟩ := ac
        rcases find_best_some_src _ K a c hfb with h1 | ⟨S, bt, h1⟩
        · show itemCount (a, c).1 name = _
          rw [h1]
          exact itemCount_assign_unlimited _ h name
        · obtain ⟨-, -, hcnt⟩ := comboAssign_some _ _ _ _ _ _ _ h1
          show itemCount (a, c).1 name = _
          have h0 : itemCount ([] : AssignmentMap) name = 0 := rfl
          rw [hcnt name, h0, Nat.zero_add]

/-! ### Result formatter (`_format_results`) -/

/-- Model of `store_totals[store] = sum(price for _, _, price in entries)`. -/
def storeTotal (entries : List AssignmentEntry) : ℚ :=
  (entries.map (fun e => e.2.2)).sum

/-- Stable insertion for a sort by numeric key: pass over strictly smaller
keys, stop at the first key that is not smaller (so earlier elements keep
their place among ties), as Python's stable `sorted` does. -/
def insertByKey (key : α → ℚ) (x : α) : List α → List α
  | [] => [x]
  | y :: ys => if key y < key x then y :: insertByKey key x ys else x :: y :: ys

/-- Stable sort by a numeric key (models Python's `sorted(..., key=...)`). -/
def sortByKey (key : α → ℚ) : List α → List α
  | [] => []
  | x :: xs => insertByKey key x (sortByKey key xs)

/-- Model of `PriceOptimizer._format_results`: order the stores by ascending subtotal
(stable), drop the numeric price from every entry. -/
def format_results (assignments : AssignmentMap) :
    List (String × List (String × String)) :=
  (sortByKey (fun kv => storeTotal kv.2) assignments).map
    (fun kv => (kv.1, kv.2.map (fun e => (e.1, e.2.1))))

section SortLemmas

variable {α : Type} (key : α → ℚ)

theorem insertByKey_perm (x : α) (l : List α) :
    (insertByKey key x l).Perm (x :: l) := by
  induction l with
  | nil => exact List.Perm.refl _
  | cons y ys ih =>
    by_cases h : key y < key x
    · show (if key y < key x then y :: insertByKey key x ys else x :: y :: ys).Perm _
      rw [if_pos h]
      exact List.Perm.trans (List.Perm.cons y ih) (List.Perm.swap x y ys)
    · show (if key y < key x then y :: insertByKey key x ys else x :: y :: ys).Perm _
      rw [if_neg h]

theorem sortByKey_perm (l : List α) : (sortByKey key l).Perm l := by
  induction l with
  | nil => exact List.Perm.refl _
  | cons x xs ih =>
    exact List.Perm.trans (insertByKey_perm key x (sortByKey key xs))
      (List.Perm.cons x ih)

theorem insertByKey_sorted (x : α) (l : List α)
    (hl : List.Pairwise (fun a b => key a ≤ key b) l) :
    List.Pairwise (fun a b => key a ≤ key b) (insertByKey key x l) := by
  induction l with
  | nil => exact List.pairwise_singleton _ _
  | cons y ys ih =>
    obtain ⟨hy, hys⟩ := List.pairwise_cons.mp hl
    by_cases h : key y < key x
    · show List.Pairwise _ (if key y < key x then y :: insertByKey key x ys else x :: y :: ys)
      rw [if_pos h]
      refine List.pairwise_cons.mpr ⟨?_, ih hys⟩
      intro z hz
      have hz' := (insertByKey_perm key x ys).mem_iff.mp hz
      rcases List.mem_cons.mp hz' with rfl | hz'
      · exact le_of_lt h
      · exact hy z hz'
    · show List.Pairwise _ (if key y < key x then y :: insertByKey key x ys else x :: y :: ys)
      rw [if_neg h]
      refine List.pairwise_cons.mpr ⟨?_, hl⟩
      intro z hz
      rcases List.mem_cons.mp hz with rfl | hz
      · exact le_of_not_lt h
      · exact le_trans (le_of_not_lt h) (hy z hz)

theorem sortByKey_sorted (l : List α) :
    List.Pairwise (fun a b => key a ≤ key b) (sortByKey key l) := by
  induction l with
  | nil => exact List.Pairwise.nil
  | cons x xs ih => exact insertByKey_sorted key x (sortByKey key xs) ih

theorem filter_insertByKey_eq (x : α) (q : ℚ) (hx : key x = q) (l : List α) :
    (insertByKey key x l).filter (fun z => decide (key z = q)) =
      x :: l.filter (fun z => decide (key z = q)) := by
  induction l with
  | nil => simp [insertByKey, hx]
  | cons y ys ih =>
    by_cases h : key y < key x
    · have hy : ¬ (key y = q) := by
        intro hc
        rw [hc, hx] at h
        exact lt_irrefl q h
      show ((if key y < key x then y :: insertByKey key x ys else x :: y :: ys).filter _) = _
      rw [if_pos h, List.filter_cons, if_neg (by simp [hy]), ih,
        List.filter_cons, if_neg (by simp [hy])]
    · show ((if key y < key x then y :: insertByKey key x ys else x :: y :: ys).filter _) = _
      rw [if_neg h, List.filter_cons, if_pos (by simp [hx])]

theorem filter_insertByKey_ne (x : α) (q : ℚ) (hx : ¬ key x = q) (l : List α) :
    (insertByKey key x l).filter (fun z => decide (key z = q)) =
      l.filter (fun z => decide (key z = q)) := by
  induction l with
  | nil => simp [insertByKey, hx]
  | cons y ys ih =>
    by_cases h : key y < key x
    · show ((if key y < key x then y :: insertByKey key x ys else x :: y :: ys).filter _) = _
      rw [if_pos h, List.filter_cons, List.filter_cons, ih]
    · show ((if key y < key x then y :: insertByKey key x ys else x :: y :: ys).filter _) = _
      rw [if_neg h, List.filter_cons, if_neg (by simp [hx])]

/-- Stability: among elements of equal key, the sorted list keeps the input
order. -/
theorem sortByKey_stable (l : List α) (q : ℚ) :
    (sortByKey key l).filter (fun z => decide (key z = q)) =
      l.filter (fun z => decide (key z = q)) := by
  induction l with
  | nil => rfl
  | cons x xs ih =>
    show ((insertByKey key x (sortByKey key xs)).filter _) = _
    by_cases hx : key x = q
    · rw [filter_insertByKey_eq key x q hx, ih, List.filter_cons]
      simp [hx]
    · rw [filter_insertByKey_ne key x q hx, ih, List.filter_cons]
      simp [hx]

end SortLemmas

/-- Two stores with equal subtotals, inserted in anti-lexical order. -/
def C6cex : AssignmentMap :=
  [("B", [("x", "5", (5 : ℚ))]), ("A", [("y", "5", (5 : ℚ))])]

/-- C6 counterexample: with equal subtotals, the formatter keeps the map's
insertion order ("B" before "A"), not lexical store-label order, although
"A" < "B". -/
theorem C6_counterexample :
    (format_results C6cex).map Prod.fst = ["B", "A"] ∧
    storeTotal [("x", "5", (5 : ℚ))] = storeTotal [("y", "5", (5 : ℚ))] ∧
    strLt ("A") ("B") = true := by
  refine ⟨?_, rfl, by decide⟩
  show (List.map Prod.fst
    (List.map (fun kv => (kv.1, kv.2.map (fun e => (e.1, e.2.1))))
      (sortByKey (fun kv => storeTotal kv.2) C6cex))) = ["B", "A"]
  norm_num [C6cex, sortByKey, insertByKey, storeTotal]

/-- C6 (amended): the formatter orders stores by non-decreasing subtotal with
ties kept in the assignment map's insertion order (not lexical order), keeps
only item name and display price text per entry, and maps the empty
assignment to the empty structure. -/
theorem C6_formatter_amended (asg : AssignmentMap) :
    (sortByKey (fun kv => storeTotal kv.2) asg).Perm asg ∧
    List.Pairwise (fun a b => storeTotal a.2 ≤ storeTotal b.2)
      (sortByKey (fun kv => storeTotal kv.2) asg) ∧
    (∀ q, (sortByKey (fun kv => storeTotal kv.2) asg).filter
        (fun kv => decide (storeTotal kv.2 = q)) =
      asg.filter (fun kv => decide (storeTotal kv.2 = q))) ∧
    format_results asg = (sortByKey (fun kv => storeTotal kv.2) asg).map
      (fun kv => (kv.1, kv.2.map (fun e => (e.1, e.2.1)))) ∧
    format_results [] = ([] : List (String × List (String × String))) :=
  ⟨sortByKey_perm _ asg, sortByKey_sorted _ asg,
    fun q => sortByKey_stable _ asg q, rfl, rfl⟩

/-! ### Offer normalizer (`_fetch_store_prices` and `parse_price`) -/

/-- A raw per-store row from the scraper's response (`entry.get(...)`;
`none` models a missing key or a `None` value). -/
structure RawEntry where
  store : Option String
  location : Option String
  price : Option String
  price_value : Option ℚ
deriving DecidableEq, Repr

/-- Digit string to number (usual base-10 reading). -/
def digitsToNat (cs : List Char) : ℕ :=
  cs.foldl (fun a c => 10 * a + (c.toNat - 48)) 0

/-- Model of `re.sub` cleaning followed by `.replace(",", ".")`. -/
def cleanPrice (s : String) : List Char :=
  (s.data.filter (fun c => c.isDigit || c = '.' || c = ',')).map
    (fun c => if c = ',' then '.' else c)

/-- Python `float` on a string of digits and dots: defined iff there is at
least one digit and at most one dot; the value is the usual decimal reading. -/
def pyFloat? (cs : List Char) : Option ℚ :=
  if cs.any Char.isDigit ∧ cs.count '.' ≤ 1 then
    some ((digitsToNat (cs.takeWhile (fun c => c ≠ '.')) : ℚ) +
      (digitsToNat ((cs.dropWhile (fun c => c ≠ '.')).drop 1) : ℚ) /
        (10 : ℚ) ^ ((cs.dropWhile (fun c => c ≠ '.')).drop 1).length)
  else none

/-- Model of `parse_price` from `utils/parser.py`: empty input is unparseable; strip
every character that is not a digit, dot or comma; turn commas into dots;
read as a float, `none` if that fails. -/
def parse_price (price_str : String) : Option ℚ :=
  if price_str = "" then none
  else pyFloat? (cleanPrice price_str)

/-- One row of `_fetch_store_prices`: skip rows without store or price text;
take the supplied numeric price or fall back to parsing; skip unparseable
rows. -/
def normalizeRow (e : RawEntry) : Option StoreOption :=
  match e.store, e.price with
  | some s, some p =>
    if s = "" ∨ p = "" then none
    else
      match e.price_value with
      | some v => some ⟨s, e.location, v, p⟩
      | none =>
        match parse_price p with
        | some v => some ⟨s, e.location, v, p⟩
        | none => none
  | _, _ => none

/-- Model of `PriceOptimizer._fetch_store_prices` on the rows of one response:
normalize each row, then stable-sort ascending by numeric price. -/
def fetch_store_prices (rows : List RawEntry) : List StoreOption :=
  sortByKey (fun o => o.price_value) (rows.filterMap normalizeRow)

/-- Spec-side keep condition, phrased as the contract states it: a row
survives iff it has a store name and a price text and either a supplied
numeric price or a parseable price text. -/
def keptB (e : RawEntry) : Bool :=
  match e.store, e.price with
  | some s, some p =>
    if s = "" ∨ p = "" then false
    else
      match e.price_value with
      | some _ => true
      | none => (parse_price p).isSome
  | _, _ => false

/-- Spec-side canonical offer of a kept row: the supplied numeric price, or
else the parsed one. -/
def enrich (e : RawEntry) : StoreOption :=
  match e.store, e.price with
  | some s, some p =>
    ⟨s, e.location, e.price_value.getD ((parse_price p).getD 0), p⟩
  | _, _ => ⟨"", none, 0, ""⟩

theorem normalizeRow_eq (e : RawEntry) :
    normalizeRow e = if keptB e = true then some (enrich e) else none := by
  obtain ⟨st, loc, pr, pv⟩ := e
  rcases st with _ | s
  · rfl
  · rcases pr with _ | p
    · rfl
    · by_cases hsp : s = "" ∨ p = ""
      · simp [normalizeRow, keptB, hsp]
      · rcases pv with _ | v
        · rcases hpp : parse_price p with _ | v'
          · simp [normalizeRow, keptB, hsp, hpp]
          · simp [normalizeRow, keptB, enrich, hsp, hpp]
        · simp [normalizeRow, keptB, enrich, hsp]

theorem filterMap_normalizeRow (rows : List RawEntry) :
    rows.filterMap normalizeRow = (rows.filter keptB).map enrich := by
  induction rows with
  | nil => rfl
  | cons e rest ih =>
    rw [List.filterMap_cons, List.filter_cons, normalizeRow_eq e]
    by_cases hk : keptB e = true
    · rw [if_pos hk, if_pos hk, List.map_cons, ih]
    · rw [if_neg hk, if_neg hk, ih]

/-- C7: the Offer Normalizer keeps exactly the rows with a store name, a price
text, and a supplied-or-parseable numeric price; every surviving row carries
that numeric price; the output is the stable ascending sort by price of those
rows (ties in input order); being a pure function of the rows, the transform
is deterministic. -/
theorem C7_offer_normalizer (rows : List RawEntry) :
    fetch_store_prices rows =
      sortByKey (fun o => o.price_value) ((rows.filter keptB).map enrich) ∧
    List.Pairwise (fun a b => a.price_value ≤ b.price_value)
      (fetch_store_prices rows) ∧
    (∀ q, (fetch_store_prices rows).filter (fun o => decide (o.price_value = q)) =
      ((rows.filter keptB).map enrich).filter (fun o => decide (o.price_value = q))) ∧
    (fetch_store_prices rows).Perm ((rows.filter keptB).map enrich) := by
  have h0 : fetch_store_prices rows =
      sortByKey (fun o => o.price_value) ((rows.filter keptB).map enrich) := by
    unfold fetch_store_prices
    rw [filterMap_normalizeRow]
  refine ⟨h0, ?_, ?_, ?_⟩
  · exact h0 ▸ (filterMap_normalizeRow rows ▸
      sortByKey_sorted (fun o => o.price_value) (rows.filterMap normalizeRow))
  · intro q
    rw [h0]
    exact sortByKey_stable _ _ q
  · rw [h0]
    exact sortByKey_perm _ _

/-! ### Comparison-store augmentation (`_build_shufersal_comparison`) -/

/-- One step of the scan: on a match, overwrite the remembered store label and
append the item with the matched offer's price text. -/
def shufStep (marker : String) (acc : Option String × List (String × String))
    (io : ItemOptions) : Option String × List (String × String) :=
  match io.2.find? (fun e => strContains e.name marker) with
  | none => acc
  | some m => (some (store_label m.name m.location), acc.2 ++ [(io.1, m.price_str)])

/-- Model of `PriceOptimizer._build_shufersal_comparison`: scan every item for its
first offer whose store name contains the marker; return the extra row when a
nonempty label was remembered, at least one entry collected, and the label is
not already a key of the formatted results. -/
def build_shufersal_comparison (marker : String) (ios : List ItemOptions)
    (existing : List (String × List (String × String))) :
    Option (String × List (String × String)) :=
  if marker = "" then none
  else
    match ios.foldl (shufStep marker) (none, []) with
    | (none, _) => none
    | (some sn, entries) =>
      if sn ≠ "" ∧ entries ≠ [] ∧ ¬ (existing.any (fun kv => kv.1 = sn)) then
        some (sn, entries)
      else none

/-- Python `results[store_name] = entries` on the formatted dict. -/
def dictSet (m : List (String × List (String × String))) (k : String)
    (v : List (String × String)) : List (String × List (String × String)) :=
  if m.any (fun kv => kv.1 = k) then
    m.map (fun kv => if kv.1 = k then (k, v) else kv)
  else m ++ [(k, v)]

/-- The items matched by the scan, each with its first matching offer. -/
def comparisonMatches (marker : String) (ios : List ItemOptions) :
    List (String × StoreOption) :=
  ios.filterMap (fun io =>
    (io.2.find? (fun e => strContains e.name marker)).map (fun m => (io.1, m)))

theorem shufFold_spec (marker : String) :
    ∀ (ios : List ItemOptions) (sn : Option String) (es : List (String × String)),
      ios.foldl (shufStep marker) (sn, es) =
        ((match (comparisonMatches marker ios).getLast? with
          | some x => some (store_label x.2.name x.2.location)
          | none => sn),
         es ++ (comparisonMatches marker ios).map (fun x => (x.1, x.2.price_str))) := by
  intro ios
  induction ios with
  | nil => intro sn es; simp [comparisonMatches]
  | cons io rest ih =>
    intro sn es
    rw [List.foldl_cons]
    rcases hf : io.2.find? (fun e => strContains e.name marker) with _ | m
    · have hstep : shufStep marker (sn, es) io = (sn, es) := by
        unfold shufStep; rw [hf]
      have hm : comparisonMatches marker (io :: rest) = comparisonMatches marker rest := by
        unfold comparisonMatches
        rw [List.filterMap_cons, hf]
        rfl
      rw [hstep, hm, ih]
    · have hstep : shufStep marker (sn, es) io =
          (some (store_label m.name m.location), es ++ [(io.1, m.price_str)]) := by
        unfold shufStep; rw [hf]
      have hm : comparisonMatches marker (io :: rest) =
          (io.1, m) :: comparisonMatches marker rest := by
        unfold comparisonMatches
        rw [List.filterMap_cons, hf]
        rfl
      rw [hstep, hm, ih]
      rcases hr : (comparisonMatches marker rest).getLast? with _ | x
      · have hrn : comparisonMatches marker rest = [] :=
          List.getLast?_eq_none_iff.mp hr
        rw [hrn]
        simp
      · have hrne : comparisonMatches marker rest ≠ [] := by
          intro hc
          rw [hc] at hr
          cases hr
        have hcons : ((io.1, m) :: comparisonMatches marker rest).getLast? = some x := by
          cases hrest : comparisonMatches marker rest with
          | nil => exact absurd hrest hrne
          | cons y ys =>
            rw [List.getLast?_cons_cons, ← hrest, hr]
        rw [hcons]
        simp

/-- Item lists for the C8 counterexample: two items whose first matching
offers live at two different store labels. -/
def C8ios : List ItemOptions :=
  [("i1", [⟨"SA", none, 1, "1"⟩]), ("i2", [⟨"SB", none, 2, "2"⟩])]

/-- C8 counterexample: the code adds the comparison row even though the two
matched items are attributed to two different store labels ("SA" and "SB");
the row is keyed by the last matched label and lists item i1 with a price
from store "SA", not a price of the row's store "SB". -/
theorem C8_counterexample :
    build_shufersal_comparison ("S") C8ios [] =
      some ("SB", [("i1", "1"), ("i2", "2")]) ∧
    store_label ("SA") none ≠ store_label ("SB") none := by
  constructor
  · rfl
  · decide

/-- C8 (amended): the comparison row is produced exactly when some item has a
matching offer; its label is that of the *last* matched item's first matching
offer (with no consistency check across items), provided that label is
nonempty and not already a key of the formatted result; the row lists each
matched item's own first-matching-offer price text; and appending the new key
leaves the main assignment's rows unchanged. -/
theorem C8_comparison_amended (marker : String) (hm : marker ≠ "")
    (ios : List ItemOptions) (existing : List (String × List (String × String))) :
    (comparisonMatches marker ios = [] →
      build_shufersal_comparison marker ios existing = none) ∧
    (∀ x, (comparisonMatches marker ios).getLast? = some x →
      build_shufersal_comparison marker ios existing =
        (if store_label x.2.name x.2.location ≠ "" ∧
            ¬ (existing.any (fun kv => kv.1 = store_label x.2.name x.2.location)) then
          some (store_label x.2.name x.2.location,
            (comparisonMatches marker ios).map (fun y => (y.1, y.2.price_str)))
        else none)) ∧
    (∀ sn es, build_shufersal_comparison marker ios existing = some (sn, es) →
      dictSet existing sn es = existing ++ [(sn, es)]) := by
  have hb : build_shufersal_comparison marker ios existing =
      match ios.foldl (shufStep marker) (none, []) with
      | (none, _) => none
      | (some sn, entries) =>
        if sn ≠ "" ∧ entries ≠ [] ∧ ¬ (existing.any (fun kv => kv.1 = sn)) then
          some (sn, entries)
        else none := by
    unfold build_shufersal_comparison
    rw [if_neg hm]
  refine ⟨?_, ?_, ?_⟩
  · intro hnone
    rw [hb, shufFold_spec marker ios none [], hnone]
    rfl
  · intro x hx
    rw [hb, shufFold_spec marker ios none [], hx]
    have hne : comparisonMatches marker ios ≠ [] := by
      intro hc
      rw [hc] at hx
      cases hx
    have hmapne : (comparisonMatches marker ios).map (fun y => (y.1, y.2.price_str)) ≠ [] := by
      intro hc
      exact hne (List.map_eq_nil_iff.mp hc)
    show (if store_label x.2.name x.2.location ≠ "" ∧
        [] ++ (comparisonMatches marker ios).map (fun y => (y.1, y.2.price_str)) ≠ [] ∧
        ¬ (existing.any (fun kv => kv.1 = store_label x.2.name x.2.location)) then
      some (store_label x.2.name x.2.location,
        [] ++ (comparisonMatches marker ios).map (fun y => (y.1, y.2.price_str)))
      else none) = _
    rw [List.nil_append]
    by_cases h1 : store_label x.2.name x.2.location ≠ "" ∧
        ¬ (existing.any (fun kv => kv.1 = store_label x.2.name x.2.location))
    · rw [if_pos ⟨h1.1, hmapne, h1.2⟩, if_pos h1]
    · rw [if_neg (fun hc => h1 ⟨hc.1, hc.2.2⟩), if_neg h1]
  · intro sn es hsome
    rw [hb, shufFold_spec marker ios none []] at hsome
    rcases hlast : (comparisonMatches marker ios).getLast? with _ | x
    · rw [hlast] at hsome
      cases hsome
    · rw [hlast] at hsome
      have h' : (if store_label x.2.name x.2.location ≠ "" ∧
          [] ++ (comparisonMatches marker ios).map (fun y => (y.1, y.2.price_str)) ≠ [] ∧
          ¬ (existing.any (fun kv => kv.1 = store_label x.2.name x.2.location)) then
        some (store_label x.2.name x.2.location,
          [] ++ (comparisonMatches marker ios).map (fun y => (y.1, y.2.price_str)))
        else none) = some (sn, es) := hsome
      by_cases hc : store_label x.2.name x.2.location ≠ "" ∧
          [] ++ (comparisonMatches marker ios).map (fun y => (y.1, y.2.price_str)) ≠ [] ∧
          ¬ (existing.any (fun kv => kv.1 = store_label x.2.name x.2.location))
      · rw [if_pos hc] at h'
        obtain ⟨h1, h2⟩ := Prod.mk.injEq _ _ _ _ ▸ Option.some.injEq _ _ ▸ h'
        unfold dictSet
        rw [if_neg ?_]
        · intro hany
          rw [← h1] at hany
          exact hc.2.2 hany
      · rw [if_neg hc] at h'
        cases h'

/-! ### Price collection with per-run cache (`_collect_prices`) -/

/-- State of the collection loop: the per-run cache, the working set built so
far, the missing-item names, and the names actually fetched from the scraper
(one per cache miss). -/
structure CollectState where
  cache : List (String × List StoreOption)
  options : List ItemOptions
  missing : List String
  fetched : List String
deriving Repr

/-- One iteration of `_collect_prices`: look the item up in the cache,
fetch (and cache) on a miss, then route the occurrence to the working set or
the missing list. -/
def collectStep (fetch : String → List StoreOption) (st : CollectState)
    (item : String) : CollectState :=
  match st.cache.find? (fun kv => kv.1 = item) with
  | some kv =>
    if kv.2.isEmpty then
      { st with missing := st.missing ++ [item] }
    else
      { st with options := st.options ++ [(item, kv.2)] }
  | none =>
    let sp := fetch item
    if sp.isEmpty then
      { cache := st.cache ++ [(item, sp)], options := st.options,
        missing := st.missing ++ [item], fetched := st.fetched ++ [item] }
    else
      { cache := st.cache ++ [(item, sp)], options := st.options ++ [(item, sp)],
        missing := st.missing, fetched := st.fetched ++ [item] }

/-- Model of `PriceOptimizer._collect_prices` over the item list. -/
def collect_prices (fetch : String → List StoreOption) (items : List String) :
    CollectState :=
  items.foldl (collectStep fetch) ⟨[], [], [], []⟩

/-- First occurrences of each name, given the names already seen. -/
def dedupFirstAux (seen : List String) : List String → List String
  | [] => []
  | x :: xs =>
    if seen.contains x then dedupFirstAux seen xs
    else x :: dedupFirstAux (seen ++ [x]) xs

/-- First occurrence of each name, in order. -/
def dedupFirst (l : List String) : List String := dedupFirstAux [] l

theorem dedupFirstAux_cons (seen : List String) (x : String) (xs : List String) :
    dedupFirstAux seen (x :: xs) =
      if seen.contains x then dedupFirstAux seen xs
      else x :: dedupFirstAux (seen ++ [x]) xs := rfl

theorem find_cache_map (fetch : String → List StoreOption) (i : String) :
    ∀ xs : List String,
      (xs.map (fun x => (x, fetch x))).find? (fun kv => kv.1 = i) =
        if xs.contains i then some (i, fetch i) else none := by
  intro xs
  induction xs with
  | nil => rfl
  | cons x rest ih =>
    rw [List.map_cons, List.find?_cons]
    by_cases hx : x = i
    · subst hx
      have h1 : (decide ((x, fetch x).1 = x)) = true := by simp
      have h2 : (x :: rest).contains x = true := by
        rw [List.contains_cons]
        simp
      rw [h1, h2, if_pos rfl]
    · have h1 : (decide ((x, fetch x).1 = i)) = false := by simp [hx]
      have h2 : (x :: rest).contains i = rest.contains i := by
        rw [List.contains_cons,
          beq_eq_false_iff_ne.mpr (fun hc => hx hc.symm), Bool.false_or]
      rw [h1, ih, h2]

theorem filter_live_cons_pos (fetch : String → List StoreOption) (x : String)
    (xs : List String) (h : (fetch x).isEmpty = false) :
    (x :: xs).filter (fun i => !(fetch i).isEmpty) =
      x :: xs.filter (fun i => !(fetch i).isEmpty) := by
  rw [List.filter_cons, if_pos (by rw [h]; rfl)]

theorem filter_live_cons_neg (fetch : String → List StoreOption) (x : String)
    (xs : List String) (h : (fetch x).isEmpty = true) :
    (x :: xs).filter (fun i => !(fetch i).isEmpty) =
      xs.filter (fun i => !(fetch i).isEmpty) := by
  rw [List.filter_cons, if_neg (by rw [h]; decide)]

theorem filter_miss_cons_pos (fetch : String → List StoreOption) (x : String)
    (xs : List String) (h : (fetch x).isEmpty = true) :
    (x :: xs).filter (fun i => (fetch i).isEmpty) =
      x :: xs.filter (fun i => (fetch i).isEmpty) := by
  rw [List.filter_cons, if_pos (by rw [h])]

theorem filter_miss_cons_neg (fetch : String → List StoreOption) (x : String)
    (xs : List String) (h : (fetch x).isEmpty = false) :
    (x :: xs).filter (fun i => (fetch i).isEmpty) =
      xs.filter (fun i => (fetch i).isEmpty) := by
  rw [List.filter_cons, if_neg (by rw [h]; exact Bool.false_ne_true)]

theorem collect_fold (fetch : String → List StoreOption) :
    ∀ (items seenKeys : List String) (opts : List ItemOptions)
      (miss ftchd : List String),
      items.foldl (collectStep fetch)
        ⟨seenKeys.map (fun i => (i, fetch i)), opts, miss, ftchd⟩ =
      ⟨(seenKeys ++ dedupFirstAux seenKeys items).map (fun i => (i, fetch i)),
       opts ++ (items.filter (fun i => !(fetch i).isEmpty)).map (fun i => (i, fetch i)),
       miss ++ items.filter (fun i => (fetch i).isEmpty),
       ftchd ++ dedupFirstAux seenKeys items⟩ := by
  intro items
  induction items with
  | nil =>
    intro seenKeys opts miss ftchd
    simp [dedupFirstAux]
  | cons x xs ih =>
    intro seenKeys opts miss ftchd
    rw [List.foldl_cons]
    by_cases hseen : seenKeys.contains x = true
    · have hfind : (seenKeys.map (fun i => (i, fetch i))).find?
          (fun kv => kv.1 = x) = some (x, fetch x) := by
        rw [find_cache_map fetch x seenKeys, if_pos hseen]
      have hded : dedupFirstAux seenKeys (x :: xs) = dedupFirstAux seenKeys xs := by
        rw [dedupFirstAux_cons, if_pos hseen]
      rcases hemp : (fetch x).isEmpty with _ | _
      · have hstep : collectStep fetch
            ⟨seenKeys.map (fun i => (i, fetch i)), opts, miss, ftchd⟩ x =
            ⟨seenKeys.map (fun i => (i, fetch i)), opts ++ [(x, fetch x)], miss, ftchd⟩ := by
          unfold collectStep
          rw [hfind]
          show (if (fetch x).isEmpty = true then _ else _) = _
          rw [hemp, if_neg Bool.false_ne_true]
        rw [hstep, ih, hded, filter_live_cons_pos fetch x xs hemp,
          filter_miss_cons_neg fetch x xs hemp, List.map_cons]
        simp
      · have hstep : collectStep fetch
            ⟨seenKeys.map (fun i => (i, fetch i)), opts, miss, ftchd⟩ x =
            ⟨seenKeys.map (fun i => (i, fetch i)), opts, miss ++ [x], ftchd⟩ := by
          unfold collectStep
          rw [hfind]
          show (if (fetch x).isEmpty = true then _ else _) = _
          rw [hemp, if_pos rfl]
        rw [hstep, ih, hded, filter_live_cons_neg fetch x xs hemp,
          filter_miss_cons_pos fetch x xs hemp]
        simp
    · have hfind : (seenKeys.map (fun i => (i, fetch i))).find?
          (fun kv => kv.1 = x) = none := by
        rw [find_cache_map fetch x seenKeys,
          if_neg (by rw [Bool.eq_false_iff.mpr hseen]; exact Bool.false_ne_true)]
      have hded : dedupFirstAux seenKeys (x :: xs) =
          x :: dedupFirstAux (seenKeys ++ [x]) xs := by
        rw [dedupFirstAux_cons, if_neg hseen]
      have hcache : (seenKeys.map (fun i => (i, fetch i))) ++ [(x, fetch x)] =
          (seenKeys ++ [x]).map (fun i => (i, fetch i)) := by
        rw [List.map_append, List.map_singleton]
      rcases hemp : (fetch x).isEmpty with _ | _
      · have hstep : collectStep fetch
            ⟨seenKeys.map (fun i => (i, fetch i)), opts, miss, ftchd⟩ x =
            ⟨(seenKeys ++ [x]).map (fun i => (i, fetch i)), opts ++ [(x, fetch x)],
              miss, ftchd ++ [x]⟩ := by
          unfold collectStep
          rw [hfind]
          show (if (fetch x).isEmpty = true then _ else _) = _
          rw [hemp, if_neg Bool.false_ne_true, hcache]
        rw [hstep, ih, hded, filter_live_cons_pos fetch x xs hemp,
          filter_miss_cons_neg fetch x xs hemp, List.map_cons]
        simp
      · have hstep : collectStep fetch
            ⟨seenKeys.map (fun i => (i, fetch i)), opts, miss, ftchd⟩ x =
            ⟨(seenKeys ++ [x]).map (fun i => (i, fetch i)), opts,
              miss ++ [x], ftchd ++ [x]⟩ := by
          unfold collectStep
          rw [hfind]
          show (if (fetch x).isEmpty = true then _ else _) = _
          rw [hemp, if_pos rfl, hcache]
        rw [hstep, ih, hded, filter_live_cons_neg fetch x xs hemp,
          filter_miss_cons_pos fetch x xs hemp]
        simp

/-- C10: a repeated item name is fetched from the scraper only once (later
occurrences are served from the per-run cache), yet every occurrence with
offers enters the working set separately, so duplicates multiply both the
entry lists and the reported total cost. -/
theorem C10_duplicate_items (fetch : String → List StoreOption)
    (items : List String) :
    (collect_prices fetch items).fetched = dedupFirst items ∧
    (collect_prices fetch items).cache =
      (dedupFirst items).map (fun i => (i, fetch i)) ∧
    (collect_prices fetch items).options =
      (items.filter (fun i => !(fetch i).isEmpty)).map (fun i => (i, fetch i)) ∧
    (collect_prices fetch items).missing =
      items.filter (fun i => (fetch i).isEmpty) ∧
    (assign_unlimited (collect_prices fetch items).options).2 =
      ((items.filter (fun i => !(fetch i).isEmpty)).map
        (fun i => (itemMin? (fetch i)).getD 0)).sum := by
  have h0 := collect_fold fetch items [] [] [] []
  have hcp : collect_prices fetch items =
      ⟨(dedupFirst items).map (fun i => (i, fetch i)),
       (items.filter (fun i => !(fetch i).isEmpty)).map (fun i => (i, fetch i)),
       items.filter (fun i => (fetch i).isEmpty),
       dedupFirst items⟩ := by
    unfold collect_prices dedupFirst
    simpa using h0
  rw [hcp]
  refine ⟨rfl, rfl, rfl, rfl, ?_⟩
  have htot := assignUnlimited_foldl_snd
    ((items.filter (fun i => !(fetch i).isEmpty)).map (fun i => (i, fetch i))) [] 0
  rw [show assign_unlimited ((items.filter (fun i => !(fetch i).isEmpty)).map
      (fun i => (i, fetch i))) = List.foldl assignUnlimitedStep ([], 0)
      ((items.filter (fun i => !(fetch i).isEmpty)).map (fun i => (i, fetch i)))
    from rfl, htot]
  rw [zero_add]
  unfold specTotal
  rw [List.map_map]
  rfl

/-! ### Concrete scenarios and witnesses -/

/-- The spec's milk/bread scenario (offers listed ascending by price). -/
def exIos : List ItemOptions :=
  [("milk", [⟨"StoreB", none, 4, "4"⟩, ⟨"StoreA", none, 5, "5"⟩]),
   ("bread", [⟨"StoreA", none, 3, "3"⟩, ⟨"StoreB", none, 6, "6"⟩])]

/-- Witness for C1 at the milk/bread scenario with `K = 1`. -/
theorem C1_witness :
    ∃ asg c, find_best_combination exIos 1 = some (asg, c) ∧
      (∃ S, S.Sublist (storeLabels exIos) ∧ S.length ≤ 1 ∧
        coversB S exIos = true ∧ subsetCost S exIos = c) ∧
      (∀ S, S.Sublist (storeLabels exIos) → S.length ≤ 1 →
        coversB S exIos = true → c ≤ subsetCost S exIos) :=
  C1_constrained_search_optimal exIos 1 (by decide) (by decide) (by decide)
    (by decide) ["StoreA"] (by decide) (by decide) (by decide)

/-- Witness for C2 at the milk/bread scenario. -/
theorem C2_witness :
    (assign_unlimited exIos).2 = specTotal exIos ∧
    ∀ io ∈ exIos, ∃ b pre post,
      pyMin? (fun o => o.price_value) io.2 = some b ∧
      io.2 = pre ++ b :: post ∧
      itemMin? io.2 = some b.price_value ∧
      (∀ y ∈ pre, b.price_value < y.price_value) ∧
      (∀ y ∈ post, b.price_value ≤ y.price_value) ∧
      1 ≤ entryCount (assign_unlimited exIos).1 (optionLabel b)
            (io.1, b.price_str, b.price_value) :=
  C2_unconstrained_assigner exIos (by decide)

/-- Witness for C3 at the milk/bread scenario with `K = 2`. -/
theorem C3_witness : assign_items exIos (some 2) = assign_unlimited exIos :=
  C3_vacuous_constraint exIos 2 (by decide)

/-- Twenty distinct store names. -/
def names20 : List String :=
  ["S00", "S01", "S02", "S03", "S04", "S05", "S06", "S07", "S08", "S09",
   "S10", "S11", "S12", "S13", "S14", "S15", "S16", "S17", "S18", "S19"]

/-- One item offered at twenty stores (the spec's ceiling scenario). -/
def ex20 : List ItemOptions :=
  [("item", names20.map (fun n => ⟨n, none, 1, "1"⟩))]

/-- Witness for C4: 20 candidate stores and `K = 10` exceed the 100000
combination ceiling. -/
theorem C4_witness :
    find_best_combination ex20 10 = some (assign_unlimited ex20) ∧
    assign_items ex20 (some 10) = assign_unlimited ex20 :=
  C4_ceiling_fallback ex20 10 (by decide) (by decide) (by decide)

/-- Two items with disjoint single-store offers (the spec's infeasibility
scenario). -/
def exDisj : List ItemOptions :=
  [("a", [⟨"A", none, 1, "1"⟩]), ("b", [⟨"B", none, 2, "2"⟩])]

theorem exDisj_nocov (S : List String) (hS : S.Sublist (storeLabels exDisj))
    (hlen : S.length ≤ 1) : coversB S exDisj = false := by
  have he : storeLabels exDisj = ["A", "B"] := rfl
  rw [he] at hS
  cases hS with
  | cons a h1 =>
    cases h1 with
    | cons a h2 =>
      rw [List.sublist_nil.mp h2]
      decide
    | cons₂ a h2 =>
      rw [List.sublist_nil.mp h2]
      decide
  | cons₂ a h1 =>
    cases h1 with
    | cons a h2 =>
      rw [List.sublist_nil.mp h2]
      decide
    | cons₂ a h2 =>
      rw [List.sublist_nil.mp h2] at hlen
      exact absurd hlen (by decide)

/-- Witness for C5 at the disjoint-stores scenario with `K = 1`. -/
theorem C5_witness :
    assign_items exDisj (some 1) = assign_unlimited exDisj ∧
    (1 < (storeLabels exDisj).length →
      comboCount (storeLabels exDisj).length 1 ≤ 100000 →
      find_best_combination exDisj 1 = none) :=
  C5_infeasible_fallback exDisj 1 (by decide) (by decide) exDisj_nocov

/-- Witness for C8 (amended) at the two-label scenario. -/
theorem C8_witness :
    (comparisonMatches ("S") C8ios = [] →
      build_shufersal_comparison ("S") C8ios [] = none) ∧
    (∀ x, (comparisonMatches ("S") C8ios).getLast? = some x →
      build_shufersal_comparison ("S") C8ios [] =
        (if store_label x.2.name x.2.location ≠ "" ∧
            ¬ (([] : List (String × List (String × String))).any
              (fun kv => kv.1 = store_label x.2.name x.2.location)) then
          some (store_label x.2.name x.2.location,
            (comparisonMatches ("S") C8ios).map (fun y => (y.1, y.2.price_str)))
        else none)) ∧
    (∀ sn es, build_shufersal_comparison ("S") C8ios [] = some (sn, es) →
      dictSet [] sn es = [] ++ [(sn, es)]) :=
  C8_comparison_amended ("S") (by decide) C8ios []

/-- Witness for C9 at the milk/bread scenario with `K = 1`. -/
theorem C9_witness :
    itemCount (assign_items exIos (some 1)).1 ("milk") =
      nameCount (exIos.map Prod.fst) ("milk") :=
  C9_every_item_exactly_once exIos (some 1) ("milk") (by decide)

end GroceryOpt
